import Mathlib

/-!
# Verification of the SVG-Optimiser rewrite logic (`cleanSVG.py`)

Shallow embedding of the per-node rewrite operations of `CleanSVG`:
the numeric formatter (`_formatNumber` together with `re_trailing_zeros`),
decimal cleaning (`_cleanDecimals` with `re_coord_split`), transform
folding (`_handleTransforms` / `_translateElement` with `re_translate`
and `position_attributes`), and the constructor guard of `CleanSVG.__init__`.

Modelling conventions:
* Python float values are modelled as exact decimal fractions: a `DecNum`
  `(m, e)` denotes the rational `m / 10 ^ e` (`decVal`).  `float(s)` on the
  fixed-point decimal strings this program reads and writes is modelled by
  `parseDecimal` (sign, digits, optional dot, digits; the exponent / inf /
  nan forms of Python's float syntax never arise here).  `"%.Pf" % x` is
  modelled as rounding `x * 10^P` to the nearest integer, ties to even,
  which is what C's fixed-point formatting performs on the binary double
  nearest to the value; the binary representation noise (which can shift
  exact decimal ties such as 0.15 at P = 1) is abstracted away, and a
  rational zero is printed "0" where Python may print "-0.0" for a tiny
  negative value rounding to zero.  `"%d" % x` truncates toward zero,
  exactly as Python's `%d` conversion does on a float.
* An element's attribute dictionary is modelled as an association list
  with the dictionary operations `getVal` / `setVal` / `delVal`;
  `del attrib[k]` on a missing key is a `keyError`.
* The regular expressions are modelled operationally:
  `re_translate = \((-?\d+\.?\d*)\s*,?\s*(-?\d+\.?\d*)\)` by a
  backtracking matcher that enumerates quantifier choices in Python's
  preference order (greedy, leftmost match wins), and
  `re_coord_split = \s+|,` by the corresponding scanner.
* Raised exceptions are modelled with `Except PyErr`.
-/

/-- Errors raised by the modelled Python code. -/
inductive PyErr where
  | indexError
  | valueError
  | keyError
  | typeError
  | parseError
deriving DecidableEq, Repr

/-! ## Exact decimal numbers (the model of the floats this program handles) -/

/-- An exact decimal fraction `(m, e)` with value `m / 10 ^ e`. -/
abbrev DecNum := ℤ × ℕ

/-- The rational value of a `DecNum`. -/
def decVal (d : DecNum) : ℚ := (d.1 : ℚ) / 10 ^ d.2

/-- Exact addition of decimal fractions (the `+` of `_translateElement`). -/
def decAdd (a b : DecNum) : DecNum :=
  (a.1 * 10 ^ b.2 + b.1 * 10 ^ a.2, a.2 + b.2)

/-! ## Decimal digits and numerals -/

/-- The decimal digit character for `d` (defined for `d < 10`;
larger arguments are clamped to `'9'`, a case that never arises). -/
def digitChar10 : ℕ → Char
  | 0 => '0'
  | 1 => '1'
  | 2 => '2'
  | 3 => '3'
  | 4 => '4'
  | 5 => '5'
  | 6 => '6'
  | 7 => '7'
  | 8 => '8'
  | _ => '9'

/-- Numeric value of a digit character. -/
def digitVal (c : Char) : ℕ := c.toNat - 48

/-- Value of a big-endian digit string (Horner evaluation). -/
def digitsValN (cs : List Char) : ℕ :=
  cs.foldl (fun a c => 10 * a + digitVal c) 0

/-- Little-endian decimal digit characters of `n` (empty for `0`);
`fuel ≥ n` makes the recursion structural. -/
def natCharsAux : ℕ → ℕ → List Char
  | 0, _ => []
  | _ + 1, 0 => []
  | fuel + 1, n + 1 => digitChar10 ((n + 1) % 10) :: natCharsAux fuel ((n + 1) / 10)

/-- Decimal digit characters of a natural number, as printed by Python. -/
def natChars (n : ℕ) : List Char :=
  if n = 0 then ['0'] else (natCharsAux n n).reverse

/-- Decimal characters of an integer, as printed by `"%d"`. -/
def intChars (n : ℤ) : List Char :=
  (if n < 0 then ['-'] else []) ++ natChars n.natAbs

/-- The exactly-`p`-digit fraction block printed for the fraction value `m`
(`m < 10^p`): `natChars m` left-padded with zeros. -/
def fracChars (p m : ℕ) : List Char :=
  List.replicate (p - (natChars m).length) '0' ++ natChars m

/-- Characters printed by `"%.pf"` for the value `n / 10^p` (`p ≥ 1`). -/
def fixedChars (p : ℕ) (n : ℤ) : List Char :=
  (if n < 0 then ['-'] else []) ++
    natChars (n.natAbs / 10 ^ p) ++ '.' :: fracChars p (n.natAbs % 10 ^ p)

/-! ## Rounding

Integer-level implementations (on a fraction `a / b`), plus the
corresponding specifications on `ℚ` used to state the claims. -/

/-- Round `a / b` (`b > 0`) to the nearest integer, ties to even. -/
def roundHalfEvenInt (a : ℤ) (b : ℕ) : ℤ :=
  if 2 * (a - b * Int.fdiv a b) < (b : ℤ) then Int.fdiv a b
  else if (b : ℤ) < 2 * (a - b * Int.fdiv a b) then Int.fdiv a b + 1
  else if Int.fdiv a b % 2 = 0 then Int.fdiv a b else Int.fdiv a b + 1

/-- Truncate `a / b` (`b > 0`) toward zero, the conversion Python's
`"%d"` applies to a float. -/
def truncInt (a : ℤ) (b : ℕ) : ℤ :=
  if 0 ≤ a then Int.fdiv a b else -Int.fdiv (-a) b

/-- Specification on `ℚ`: truncation toward zero. -/
def ratTrunc (q : ℚ) : ℤ := if 0 ≤ q then ⌊q⌋ else -⌊-q⌋

/-- Specification on `ℚ`: round to the nearest integer, ties to even. -/
def roundHalfEven (q : ℚ) : ℤ :=
  if q - (⌊q⌋ : ℚ) < 1 / 2 then ⌊q⌋
  else if (1 : ℚ) / 2 < q - (⌊q⌋ : ℚ) then ⌊q⌋ + 1
  else if ⌊q⌋ % 2 = 0 then ⌊q⌋ else ⌊q⌋ + 1

/-! ## The numeric formatter (`CleanSVG._formatNumber`) -/

/-- The value of `self.num_format` after `setDemicalPlaces`:
`"%d"` for zero decimal places, `"%.pf"` otherwise.
(The constructor default `"%s"` is only ever replaced before formatting
in the modelled flows and is kept as plain state in `CleanSVGState`.) -/
inductive NumFormat where
  | percentD : NumFormat
  | percentF : ℕ → NumFormat
deriving DecidableEq, Repr

/-- `self.num_format % float(number)`: the pre-stripping text. -/
def pyFmtChars : NumFormat → DecNum → List Char
  | .percentD, d => intChars (truncInt d.1 (10 ^ d.2))
  | .percentF p, d => fixedChars p (roundHalfEvenInt (d.1 * 10 ^ p) (10 ^ d.2))

/-- Remove the trailing zeros of a digit block (`re_trailing_zeros` group 2). -/
def dropTrailingZeros (cs : List Char) : List Char :=
  (cs.reverse.dropWhile (fun c => decide (c = '0'))).reverse

/-- Model of `re_trailing_zeros = \.(\d*?)(0+)$` as applied by
`_formatNumber`: at the leftmost `'.'` followed only by digits and ending
in `'0'`, drop the trailing zeros, and drop the dot too when every
fractional digit was zero (`len(group(2)) + (len(group(1)) == 0)`
characters are removed from the end). -/
def stripGo : List Char → List Char
  | [] => []
  | c :: rest =>
    if c = '.' ∧ rest.all Char.isDigit ∧ rest.getLast? = some '0' then
      if dropTrailingZeros rest = [] then [] else '.' :: dropTrailingZeros rest
    else c :: stripGo rest

/-- String-level trailing-zero stripping. -/
def stripTrailingZeros (s : String) : String := String.mk (stripGo s.data)

/-- `CleanSVG._formatNumber` on an already-converted float value. -/
def formatNumber (fmt : NumFormat) (d : DecNum) : String :=
  String.mk (stripGo (pyFmtChars fmt d))

/-- The formatter's text as a function of the rational value only
(specification side; `formatNumber` computes exactly this). -/
def formatQChars : NumFormat → ℚ → List Char
  | .percentD, q => intChars (ratTrunc q)
  | .percentF p, q => fixedChars p (roundHalfEven (q * 10 ^ p))

/-- The formatter as a function of the rational value only. -/
def formatQ (fmt : NumFormat) (q : ℚ) : String :=
  String.mk (stripGo (formatQChars fmt q))

/-! ## Model of `float()` on decimal strings -/

/-- Unsigned part of Python `float` parsing, restricted to fixed-point
decimal notation: digits, optionally a dot and further digits, at least
one digit overall. -/
def parseUnsignedCh (cs : List Char) : Option DecNum :=
  match cs.dropWhile Char.isDigit with
  | [] =>
    if cs.takeWhile Char.isDigit = [] then none
    else some ((digitsValN (cs.takeWhile Char.isDigit) : ℤ), 0)
  | c :: rest =>
    if c = '.' then
      if rest.all Char.isDigit ∧ ¬(cs.takeWhile Char.isDigit = [] ∧ rest = []) then
        some ((digitsValN (cs.takeWhile Char.isDigit) : ℤ) * 10 ^ rest.length +
          (digitsValN rest : ℤ), rest.length)
      else none
    else none

/-- Sign handling of Python `float` parsing. -/
def parseDecCh (cs : List Char) : Option DecNum :=
  match cs with
  | [] => none
  | c :: rest =>
    if c = '-' then Option.map (fun d => (-d.1, d.2)) (parseUnsignedCh rest)
    else if c = '+' then parseUnsignedCh rest
    else parseUnsignedCh (c :: rest)

/-- `float(s)` for the decimal strings this program handles
(`none` models the `ValueError` raised on unparseable input). -/
def parseDecimal (s : String) : Option DecNum := parseDecCh s.data

/-- `self._formatNumber(s)` on an attribute string: `float` then format. -/
def formatNumberStr (fmt : NumFormat) (s : String) : Option String :=
  (parseDecimal s).map (formatNumber fmt)

/-- The format pattern installed by `setDemicalPlaces(p)`. -/
def fmtOfPlaces (p : ℕ) : NumFormat :=
  if p = 0 then .percentD else .percentF p

/-- The numeric value the formatter's output denotes: the truncation for
`"%d"`, the half-even rounding to `p` places for `"%.pf"`. -/
def fmtValue : NumFormat → ℚ → ℚ
  | .percentD, q => (ratTrunc q : ℚ)
  | .percentF p, q => (roundHalfEven (q * 10 ^ p) : ℚ) / 10 ^ p

/-! ## XML elements and the attribute dictionary -/

/-- One document node, as far as the per-node rewrites look at it:
the namespaced tag and the attribute dictionary (an association list
standing for the Python dict; keys are unique in any real document). -/
structure XMLElement where
  tag : String
  attrib : List (String × String)
deriving DecidableEq, Repr

/-- `attrib.get(k)` / `k in element.keys()`. -/
def getVal : List (String × String) → String → Option String
  | [], _ => none
  | (k, v) :: rest, key => if k = key then some v else getVal rest key

/-- Replacement of every entry for a key. -/
def replaceVal (l : List (String × String)) (key v : String) : List (String × String) :=
  l.map (fun kv => if kv.1 = key then (key, v) else kv)

/-- `element.set(k, v)`: replace the entry if present, else append. -/
def setVal (l : List (String × String)) (key v : String) : List (String × String) :=
  if (getVal l key).isSome then replaceVal l key v else l ++ [(key, v)]

/-- Removal of every entry for a key. -/
def delVal (l : List (String × String)) (key : String) : List (String × String) :=
  l.filter (fun kv => decide (kv.1 ≠ key))

/-- `del element.attrib[k]`: `KeyError` when the key is absent. -/
def pyDelAttr (l : List (String × String)) (key : String) :
    Except PyErr (List (String × String)) :=
  if (getVal l key).isSome then .ok (delVal l key) else .error .keyError

/-! ## The regex `re_translate = \((-?\d+\.?\d*)\s*,?\s*(-?\d+\.?\d*)\)`

A backtracking matcher.  Candidate lists enumerate each quantifier's
choices in Python's preference order (greedy: longest first; `x?` tries
`x` before skipping), nested lexicographically, and `List.findSome?`
picks the first complete match, so the result is exactly `re.search`'s. -/

/-- `n, n-1, ..., 0`: greedy preference order for a `*` quantifier. -/
def descList : ℕ → List ℕ
  | 0 => [0]
  | n + 1 => (n + 1) :: descList n

/-- Length of the leading digit run. -/
def digitRunLen (cs : List Char) : ℕ := (cs.takeWhile Char.isDigit).length

/-- Candidate lengths for `\d+` (longest first, at least one). -/
def plusLens (cs : List Char) : List ℕ :=
  (descList (digitRunLen cs)).filter (fun l => decide (0 < l))

/-- Candidate lengths for `\d*` (longest first). -/
def starLens (cs : List Char) : List ℕ := descList (digitRunLen cs)

/-- Candidate `(consumed, rest)` splits for `\d+\.?\d*`, in backtracking
preference order. -/
def coreNumSplits (cs : List Char) : List (List Char × List Char) :=
  (plusLens cs).bind (fun l1 =>
    let d1 := cs.take l1
    let r1 := cs.drop l1
    let dotBranches :=
      match r1 with
      | c :: r2 => if c = '.' then [(d1 ++ [c], r2), (d1, r1)] else [(d1, r1)]
      | [] => [(d1, r1)]
    dotBranches.bind (fun g =>
      (starLens g.2).map (fun l3 => (g.1 ++ g.2.take l3, g.2.drop l3))))

/-- Candidate `(consumed, rest)` splits for a group `-?\d+\.?\d*`. -/
def numSplits (cs : List Char) : List (List Char × List Char) :=
  match cs with
  | [] => []
  | c :: rest =>
    if c = '-' then
      (coreNumSplits rest).map (fun g => ('-' :: g.1, g.2)) ++ coreNumSplits (c :: rest)
    else coreNumSplits (c :: rest)

/-- Length of the leading whitespace run (`\s`). -/
def wsRunLen (cs : List Char) : ℕ := (cs.takeWhile Char.isWhitespace).length

/-- Candidate rests after `\s*,?\s*`, in backtracking preference order. -/
def sepRests (cs : List Char) : List (List Char) :=
  (descList (wsRunLen cs)).bind (fun l1 =>
    let r1 := cs.drop l1
    let commaBranches :=
      match r1 with
      | c :: r2 => if c = ',' then [r2, r1] else [r1]
      | [] => [r1]
    commaBranches.bind (fun r2 =>
      (descList (wsRunLen r2)).map (fun l3 => r2.drop l3)))

/-- Try the whole pattern at this position (must start with `'('`);
returns the two captured groups. -/
def matchPairAt (cs : List Char) : Option (List Char × List Char) :=
  match cs with
  | [] => none
  | c :: rest =>
    if c = '(' then
      (numSplits rest).findSome? (fun g1 =>
        (sepRests g1.2).findSome? (fun r2 =>
          (numSplits r2).findSome? (fun g2 =>
            match g2.2 with
            | c2 :: _ => if c2 = ')' then some (g1.1, g2.1) else none
            | [] => none)))
    else none

/-- `re_translate.search`: leftmost position wins. -/
def reTranslateSearchCh : List Char → Option (List Char × List Char)
  | [] => none
  | c :: rest =>
    match matchPairAt (c :: rest) with
    | some g => some g
    | none => reTranslateSearchCh rest

/-- Does `pat` start `cs`? -/
def leadsWith : List Char → List Char → Bool
  | [], _ => true
  | _ :: _, [] => false
  | p :: ps, c :: cs => p == c && leadsWith ps cs

/-- Python's `pat in s` substring test. -/
def containsSeq : List Char → List Char → Bool
  | [], pat => pat.isEmpty
  | c :: rest, pat => leadsWith pat (c :: rest) || containsSeq rest pat

/-! ## The splitter `re_coord_split = \s+|,` -/

/-- `re.split('\s+|,', s)`: scan left to right; a whitespace run or a
single comma ends the current token (empty tokens arise between adjacent
separators).  `fuel` starts above the length, so it never runs out. -/
def reCoordSplitAux : ℕ → List Char → List Char → List (List Char)
  | _, [], acc => [acc.reverse]
  | 0, _ :: _, acc => [acc.reverse]
  | fuel + 1, c :: rest, acc =>
    if c.isWhitespace then
      acc.reverse :: reCoordSplitAux fuel (rest.dropWhile Char.isWhitespace) []
    else if c = ',' then acc.reverse :: reCoordSplitAux fuel rest []
    else reCoordSplitAux fuel rest (c :: acc)

/-- The token list of `re_coord_split.split(s)`. -/
def reCoordSplit (cs : List Char) : List (List Char) :=
  reCoordSplitAux (cs.length + 1) cs []

/-! ## `str.split(sep)` (used as `tag.split('}')[1]`) -/

/-- Auxiliary scanner for `splitOnCh`. -/
def splitOnChAux (sep : Char) : List Char → List Char → List (List Char)
  | [], acc => [acc.reverse]
  | c :: rest, acc =>
    if c = sep then acc.reverse :: splitOnChAux sep rest []
    else splitOnChAux sep rest (c :: acc)

/-- Python `s.split(sep)` for a one-character separator. -/
def splitOnCh (sep : Char) (cs : List Char) : List (List Char) :=
  splitOnChAux sep cs []

/-! ## `CleanSVG._cleanDecimals` -/

/-- The recognised positional / dimensional attribute names. -/
def value_attributes : List String :=
  ["x", "y", "x1", "y1", "x2", "y2", "cx", "cy", "r", "rx", "ry", "width", "height"]

/-- The shape table of `_translateElement`. -/
def position_attributes : List (String × List String) :=
  [("rect", ["x", "y"]), ("circle", ["cx", "cy"]),
   ("ellipse", ["cx", "cy"]), ("line", ["x1", "y1", "x2", "y2"])]

/-- Association-list lookup (Python `dict.get`). -/
def lookupAssoc : List (String × List String) → String → Option (List String)
  | [], _ => none
  | (k, v) :: rest, key => if k = key then some v else lookupAssoc rest key

/-- `map(self._formatNumber, tokens)`: Python 2's eager `map`, where the
first unparseable token raises `ValueError`. -/
def formatTokens (fmt : NumFormat) : List (List Char) → Except PyErr (List String)
  | [] => .ok []
  | t :: ts =>
    match parseDecCh t with
    | none => .error .valueError
    | some d =>
      match formatTokens fmt ts with
      | .error e => .error e
      | .ok rest => .ok (formatNumber fmt d :: rest)

/-- `(values[i] + "," + values[i+1] for i in range(0, len(values), 2))`:
on an odd-length list the final `values[i+1]` raises `IndexError`. -/
def pairChunks : List String → Except PyErr (List String)
  | [] => .ok []
  | [_] => .error .indexError
  | a :: b :: rest =>
    match pairChunks rest with
    | .error e => .error e
    | .ok l => .ok ((a ++ "," ++ b) :: l)

/-- `" ".join(l)`. -/
def joinSp : List String → String
  | [] => ""
  | [a] => a
  | a :: b :: rest => a ++ " " ++ joinSp (b :: rest)

/-- The `points` branch of `_cleanDecimals`: split, format every token,
re-join in `"x,y"` pairs separated by spaces. -/
def cleanPoints (fmt : NumFormat) (pv : String) : Except PyErr String :=
  match formatTokens fmt (reCoordSplit pv.data) with
  | .error e => .error e
  | .ok vals =>
    match pairChunks vals with
    | .error e => .error e
    | .ok pairs => .ok (joinSp pairs)

/-- `_cleanDecimals` over a snapshot of the element's attribute keys. -/
def cleanDecimalsKeys (fmt : NumFormat) :
    List String → XMLElement → Except PyErr XMLElement
  | [], e => .ok e
  | k :: ks, e =>
    if k = "points" then
      match getVal e.attrib "points" with
      | none => .error .keyError
      | some pv =>
        match cleanPoints fmt pv with
        | .error er => .error er
        | .ok out => cleanDecimalsKeys fmt ks { e with attrib := setVal e.attrib "points" out }
    else if k ∈ value_attributes then
      match getVal e.attrib k with
      | none => .error .keyError
      | some v =>
        match parseDecimal v with
        | none => .error .valueError
        | some d =>
          cleanDecimalsKeys fmt ks { e with attrib := setVal e.attrib k (formatNumber fmt d) }
    else cleanDecimalsKeys fmt ks e

/-- `_cleanDecimals(element)`: iterate over the element's keys. -/
def cleanDecimalsEl (fmt : NumFormat) (e : XMLElement) : Except PyErr XMLElement :=
  cleanDecimalsKeys fmt (e.attrib.map Prod.fst) e

/-! ## `CleanSVG._translateElement` and `_handleTransforms` -/

/-- One iteration of the `for i, coord_name in enumerate(coords)` loop:
`element.set(coord_name, format(float(element.get(coord_name, 0)) + float(delta[i % 2])))`. -/
def translateStep (fmt : NumFormat) (delta : String × String) (i : ℕ) (c : String)
    (e : XMLElement) : Except PyErr XMLElement :=
  match parseDecimal ((getVal e.attrib c).getD "0") with
  | none => .error .valueError
  | some v =>
    match parseDecimal (if i % 2 = 0 then delta.1 else delta.2) with
    | none => .error .valueError
    | some d =>
      .ok { e with attrib := setVal e.attrib c (formatNumber fmt (decAdd v d)) }

/-- The whole coordinate loop of `_translateElement`. -/
def translateLoop (fmt : NumFormat) (delta : String × String) :
    ℕ → List String → XMLElement → Except PyErr XMLElement
  | _, [], e => .ok e
  | i, c :: cs, e =>
    match translateStep fmt delta i c e with
    | .error er => .error er
    | .ok e1 => translateLoop fmt delta (i + 1) cs e1

/-- `_translateElement(element, delta)`: look the namespace-stripped tag
(`element.tag.split('}')[1]`, an `IndexError` when there is no `'}'`)
up in the shape table; when found, shift every position attribute and
delete the `transform` attribute. -/
def translateElement (fmt : NumFormat) (e : XMLElement) (delta : String × String) :
    Except PyErr XMLElement :=
  match (splitOnCh '}' e.tag.data).get? 1 with
  | none => .error .indexError
  | some ty =>
    match lookupAssoc position_attributes (String.mk ty) with
    | none => .ok e
    | some coords =>
      match translateLoop fmt delta 0 coords e with
      | .error er => .error er
      | .ok e1 =>
        match pyDelAttr e1.attrib "transform" with
        | .error er => .error er
        | .ok a => .ok { e1 with attrib := a }

/-- `_handleTransforms(node)`: when a `transform` attribute mentions
`translate` and `re_translate` finds a parenthesised number pair, fold it.
(The `print` side effect of the source is irrelevant to the node.) -/
def handleTransforms (fmt : NumFormat) (e : XMLElement) : Except PyErr XMLElement :=
  match getVal e.attrib "transform" with
  | none => .ok e
  | some t =>
    if containsSeq t.data ("translate".data) then
      match reTranslateSearchCh t.data with
      | none => .ok e
      | some g => translateElement fmt e (String.mk g.1, String.mk g.2)
    else .ok e

/-! ## `CleanSVG.__init__` -/

/-- The state the constructor builds: the parsed root (if any) and the
initial `num_format` pattern. -/
structure CleanSVGState where
  root : Option XMLElement
  numFormatDefault : String
deriving DecidableEq, Repr

/-- The guard `if file:` of `CleanSVG.__init__` tests the global name
`file` — Python 2's built-in file type object, which is always truthy —
rather than the `svgfile` parameter. -/
def pyTruthyBuiltinFile : Bool := true

/-- `CleanSVG.__init__(svgfile)`:  since the guard is always true,
`self.parseFile(svgfile)` always runs; `svgfile=None` makes
`ElementTree.parse` raise (`open(None)` fails), and a failing parse
raises too.  `parseF` abstracts the XML parser. -/
def cleanSVG_init (parseF : String → Option XMLElement) (svgfile : Option String) :
    Except PyErr CleanSVGState :=
  if pyTruthyBuiltinFile then
    match svgfile with
    | none => .error .typeError
    | some f =>
      match parseF f with
      | none => .error .parseError
      | some root => .ok ⟨some root, "%s"⟩
  else .ok ⟨none, "%s"⟩

deriving instance DecidableEq for Except

/-- The precision constraint under which the formatter is used: any
truncating format, or a fixed format with at least one decimal place
(exactly the two shapes `setDemicalPlaces` installs). -/
def fmtPrec : NumFormat → Prop
  | .percentD => True
  | .percentF p => 1 ≤ p

/-- What the specified transform folding does to a shape node: the result
keeps the tag, loses the `transform` attribute, each position attribute
(index `j` in the table entry) becomes the formatted sum of its previous
value (0 when absent) and the matching delta (`dx` for even `j`, `dy` for
odd `j`), and every other attribute is untouched. -/
def foldOutcome (fmt : NumFormat) (dx dy : ℚ) (coords : List String) (e : XMLElement) : Prop :=
  ∃ eN : XMLElement, handleTransforms fmt e = Except.ok eN ∧ eN.tag = e.tag ∧
    getVal eN.attrib "transform" = none ∧
    (∀ j (hj : j < coords.length), ∃ v : ℚ,
      Option.map decVal (parseDecimal ((getVal e.attrib (coords.get ⟨j, hj⟩)).getD "0")) =
        some v ∧
      getVal eN.attrib (coords.get ⟨j, hj⟩) =
        some (formatQ fmt (v + (if j % 2 = 0 then dx else dy)))) ∧
    (∀ k, k ∉ coords → k ≠ "transform" → getVal eN.attrib k = getVal e.attrib k)

/-! ## Digit and numeral lemmas -/

theorem digitChar10_isDigit : ∀ d : ℕ, (digitChar10 d).isDigit = true
  | 0 => rfl
  | 1 => rfl
  | 2 => rfl
  | 3 => rfl
  | 4 => rfl
  | 5 => rfl
  | 6 => rfl
  | 7 => rfl
  | 8 => rfl
  | _ + 9 => rfl

theorem digitVal_digitChar10 (d : ℕ) (h : d < 10) : digitVal (digitChar10 d) = d := by
  interval_cases d <;> decide

theorem digitsValN_foldl (ys : List Char) (a : ℕ) :
    List.foldl (fun a c => 10 * a + digitVal c) a ys = a * 10 ^ ys.length + digitsValN ys := by
  induction ys generalizing a with
  | nil => simp [digitsValN]
  | cons y ys ih =>
    simp only [List.foldl_cons, List.length_cons, digitsValN]
    rw [ih (10 * a + digitVal y), ih (10 * 0 + digitVal y)]
    ring

theorem digitsValN_append (xs ys : List Char) :
    digitsValN (xs ++ ys) = digitsValN xs * 10 ^ ys.length + digitsValN ys := by
  simp only [digitsValN, List.foldl_append]
  exact digitsValN_foldl ys (digitsValN xs)

theorem digitsValN_replicate_zero (k : ℕ) : digitsValN (List.replicate k '0') = 0 := by
  induction k with
  | zero => rfl
  | succ k ih =>
    rw [List.replicate_succ]
    simp only [digitsValN, List.foldl_cons] at ih ⊢
    simpa [digitVal] using ih

theorem natCharsAux_val : ∀ fuel n : ℕ, n ≤ fuel →
    digitsValN (natCharsAux fuel n).reverse = n := by
  intro fuel
  induction fuel with
  | zero =>
    intro n h
    have hn : n = 0 := Nat.le_zero.mp h
    subst hn
    rfl
  | succ f ih =>
    intro n h
    match n with
    | 0 => rfl
    | m + 1 =>
      have hdiv : (m + 1) / 10 ≤ f := by
        have h1 : (m + 1) / 10 < m + 1 := Nat.div_lt_self (Nat.succ_pos m) (by norm_num)
        omega
      have hval : digitsValN [digitChar10 ((m + 1) % 10)] = (m + 1) % 10 := by
        simp [digitsValN, digitVal_digitChar10 _ (Nat.mod_lt _ (by norm_num))]
      simp only [natCharsAux, List.reverse_cons, digitsValN_append, ih ((m + 1) / 10) hdiv,
        List.length_cons, List.length_nil, pow_one, hval]
      omega

theorem natCharsAux_all_isDigit : ∀ fuel n : ℕ, (natCharsAux fuel n).all Char.isDigit = true := by
  intro fuel
  induction fuel with
  | zero => intro n; rfl
  | succ f ih =>
    intro n
    match n with
    | 0 => rfl
    | m + 1 =>
      simp only [natCharsAux, List.all_cons, Bool.and_eq_true]
      exact ⟨digitChar10_isDigit _, ih _⟩

theorem natCharsAux_length_le : ∀ fuel n p : ℕ, n < 10 ^ p →
    (natCharsAux fuel n).length ≤ p := by
  intro fuel
  induction fuel with
  | zero => intro n p _; simp [natCharsAux]
  | succ f ih =>
    intro n p hp
    match n with
    | 0 => simp [natCharsAux]
    | m + 1 =>
      match p with
      | 0 => simp at hp
      | q + 1 =>
        simp only [natCharsAux, List.length_cons, Nat.succ_le_succ_iff]
        apply ih
        rw [Nat.div_lt_iff_lt_mul (by norm_num : (0:ℕ) < 10)]
        calc m + 1 < 10 ^ (q + 1) := hp
          _ = 10 ^ q * 10 := by ring

theorem natChars_val (n : ℕ) : digitsValN (natChars n) = n := by
  unfold natChars
  by_cases h : n = 0
  · rw [if_pos h, h]; rfl
  · rw [if_neg h]
    exact natCharsAux_val n n le_rfl

theorem natChars_all_isDigit (n : ℕ) : (natChars n).all Char.isDigit = true := by
  unfold natChars
  by_cases h : n = 0
  · rw [if_pos h]; rfl
  · rw [if_neg h]
    simpa using natCharsAux_all_isDigit n n

theorem natChars_ne_nil (n : ℕ) : natChars n ≠ [] := by
  unfold natChars
  by_cases h : n = 0
  · simp [h]
  · rw [if_neg h]
    intro hrev
    have hv := natCharsAux_val n n le_rfl
    rw [hrev] at hv
    exact h (by simpa [digitsValN] using hv.symm)

theorem natChars_length_le (n p : ℕ) (h1 : 1 ≤ p) (h2 : n < 10 ^ p) :
    (natChars n).length ≤ p := by
  unfold natChars
  by_cases h : n = 0
  · rw [if_pos h]; simpa using h1
  · rw [if_neg h]
    simpa using natCharsAux_length_le n n p h2

/-! ## Character and scanning helpers -/

theorem isDigit_ne_dot (c : Char) (h : c.isDigit = true) : c ≠ '.' := by
  intro he; subst he; exact absurd h (by decide)

theorem isDigit_ne_minus (c : Char) (h : c.isDigit = true) : c ≠ '-' := by
  intro he; subst he; exact absurd h (by decide)

theorem isDigit_ne_plus (c : Char) (h : c.isDigit = true) : c ≠ '+' := by
  intro he; subst he; exact absurd h (by decide)

theorem takeWhile_append_all (p : Char → Bool) (xs ys : List Char)
    (h : ∀ c ∈ xs, p c = true) : (xs ++ ys).takeWhile p = xs ++ ys.takeWhile p := by
  induction xs with
  | nil => simp
  | cons x xs ih =>
    have hx : p x = true := h x (List.mem_cons_self x xs)
    simp only [List.cons_append, List.takeWhile_cons, hx, if_true]
    rw [ih (fun c hc => h c (List.mem_cons_of_mem x hc))]

theorem dropWhile_append_all (p : Char → Bool) (xs ys : List Char)
    (h : ∀ c ∈ xs, p c = true) : (xs ++ ys).dropWhile p = ys.dropWhile p := by
  induction xs with
  | nil => simp
  | cons x xs ih =>
    have hx : p x = true := h x (List.mem_cons_self x xs)
    simp only [List.cons_append, List.dropWhile_cons, hx, if_true]
    exact ih (fun c hc => h c (List.mem_cons_of_mem x hc))

theorem takeWhile_all_eq_self (p : Char → Bool) (xs : List Char)
    (h : ∀ c ∈ xs, p c = true) : xs.takeWhile p = xs := by
  have := takeWhile_append_all p xs [] h
  simpa using this

theorem dropWhile_all_eq_nil (p : Char → Bool) (xs : List Char)
    (h : ∀ c ∈ xs, p c = true) : xs.dropWhile p = [] := by
  have := dropWhile_append_all p xs [] h
  simpa using this

theorem head_dropWhile_false (p : Char → Bool) :
    ∀ (l : List Char) (c : Char) (t : List Char), l.dropWhile p = c :: t → p c = false := by
  intro l
  induction l with
  | nil => intro c t h; simp at h
  | cons a l ih =>
    intro c t h
    rw [List.dropWhile_cons] at h
    by_cases ha : p a = true
    · rw [if_pos ha] at h
      exact ih c t h
    · rw [if_neg ha] at h
      cases h
      exact Bool.eq_false_iff.mpr ha

/-! ## Trailing-zero lemmas -/

theorem dropTrailingZeros_decomp (cs : List Char) :
    ∃ z : ℕ, cs = dropTrailingZeros cs ++ List.replicate z '0' := by
  refine ⟨(cs.reverse.takeWhile (fun c => decide (c = '0'))).length, ?_⟩
  have hsplit := List.takeWhile_append_dropWhile
    (p := fun c => decide (c = '0')) (l := cs.reverse)
  have hrep : cs.reverse.takeWhile (fun c => decide (c = '0')) =
      List.replicate (cs.reverse.takeWhile (fun c => decide (c = '0'))).length '0' := by
    apply List.eq_replicate_of_mem
    intro b hb
    have := List.mem_takeWhile_imp hb
    simpa using this
  calc cs = cs.reverse.reverse := (List.reverse_reverse cs).symm
    _ = (cs.reverse.takeWhile (fun c => decide (c = '0')) ++
          cs.reverse.dropWhile (fun c => decide (c = '0'))).reverse := by rw [hsplit]
    _ = dropTrailingZeros cs ++ List.replicate
          (cs.reverse.takeWhile (fun c => decide (c = '0'))).length '0' := by
        rw [List.reverse_append, dropTrailingZeros]
        rw [hrep]
        simp [List.reverse_replicate]

theorem dropTrailingZeros_getLast (cs : List Char) (h : dropTrailingZeros cs ≠ []) :
    (dropTrailingZeros cs).getLast? ≠ some '0' := by
  unfold dropTrailingZeros at h ⊢
  rw [List.getLast?_reverse]
  intro hc
  obtain ⟨c, t, hct⟩ : ∃ c t, cs.reverse.dropWhile (fun c => decide (c = '0')) = c :: t := by
    rcases hd : cs.reverse.dropWhile (fun c => decide (c = '0')) with _ | ⟨c, t⟩
    · exact absurd (by simp [hd]) h
    · exact ⟨c, t, rfl⟩
  rw [hct] at hc
  simp at hc
  have := head_dropWhile_false _ _ _ _ hct
  rw [hc] at this
  simp at this

theorem mem_dropTrailingZeros (cs : List Char) (c : Char)
    (h : c ∈ dropTrailingZeros cs) : c ∈ cs := by
  unfold dropTrailingZeros at h
  rw [List.mem_reverse] at h
  have := (List.dropWhile_sublist (l := cs.reverse) (p := fun c => decide (c = '0'))).mem h
  simpa using this

/-! ## Stripping lemmas -/

theorem stripGo_no_dot (cs : List Char) (h : ∀ c ∈ cs, c ≠ '.') : stripGo cs = cs := by
  induction cs with
  | nil => rfl
  | cons c rest ih =>
    rw [stripGo, if_neg]
    · rw [ih (fun x hx => h x (List.mem_cons_of_mem c hx))]
    · intro hcon
      exact absurd hcon.1 (h c (List.mem_cons_self c rest))

theorem stripGo_append_dot (pre fr : List Char) (hpre : ∀ c ∈ pre, c ≠ '.')
    (hfr : fr.all Char.isDigit = true) :
    stripGo (pre ++ '.' :: fr) =
      pre ++ (if fr.getLast? = some '0' then
                (if dropTrailingZeros fr = [] then [] else '.' :: dropTrailingZeros fr)
              else '.' :: fr) := by
  induction pre with
  | nil =>
    simp only [List.nil_append]
    by_cases h0 : fr.getLast? = some '0'
    · rw [stripGo, if_pos ⟨rfl, hfr, h0⟩, if_pos h0]
    · rw [stripGo, if_neg, if_neg h0]
      · rw [stripGo_no_dot fr
          (fun c hc => isDigit_ne_dot c ((List.all_eq_true.mp hfr) c hc))]
      · intro hcon
        exact h0 hcon.2.2
  | cons a pre ih =>
    rw [List.cons_append, stripGo, if_neg]
    · rw [ih (fun x hx => hpre x (List.mem_cons_of_mem a hx))]
      rfl
    · intro hcon
      exact absurd hcon.1 (hpre a (List.mem_cons_self a pre))

/-! ## Parsing lemmas -/

theorem parseUnsignedCh_digits (cs : List Char) (h1 : cs.all Char.isDigit = true)
    (h2 : cs ≠ []) : parseUnsignedCh cs = some ((digitsValN cs : ℤ), 0) := by
  have hmem : ∀ c ∈ cs, Char.isDigit c = true := List.all_eq_true.mp h1
  have hd : cs.dropWhile Char.isDigit = [] := dropWhile_all_eq_nil _ _ hmem
  have ht : cs.takeWhile Char.isDigit = cs := takeWhile_all_eq_self _ _ hmem
  simp [parseUnsignedCh, hd, ht, h2]

theorem parseUnsignedCh_digits_dot (ip fr : List Char) (h1 : ip.all Char.isDigit = true)
    (h2 : fr.all Char.isDigit = true) (h3 : ip ≠ []) :
    parseUnsignedCh (ip ++ '.' :: fr) =
      some ((digitsValN ip : ℤ) * 10 ^ fr.length + (digitsValN fr : ℤ), fr.length) := by
  have hmem : ∀ c ∈ ip, Char.isDigit c = true := List.all_eq_true.mp h1
  have hdot : Char.isDigit '.' = false := by decide
  have hd : (ip ++ '.' :: fr).dropWhile Char.isDigit = '.' :: fr := by
    rw [dropWhile_append_all _ _ _ hmem, List.dropWhile_cons, hdot]
    simp
  have ht : (ip ++ '.' :: fr).takeWhile Char.isDigit = ip := by
    rw [takeWhile_append_all _ _ _ hmem, List.takeWhile_cons, hdot]
    simp
  simp [parseUnsignedCh, hd, ht, h2, h3]

theorem parseDecCh_cons_digit (c : Char) (cs : List Char) (h : c.isDigit = true) :
    parseDecCh (c :: cs) = parseUnsignedCh (c :: cs) := by
  rw [parseDecCh, if_neg (isDigit_ne_minus c h), if_neg (isDigit_ne_plus c h)]

/-! ## Floor and rounding bridges (integer implementation vs `ℚ` spec) -/

theorem fdiv_eq_floor (a : ℤ) (b : ℕ) (hb : 0 < b) :
    Int.fdiv a b = ⌊(a : ℚ) / (b : ℚ)⌋ := by
  have hbz : (0 : ℤ) < (b : ℤ) := by exact_mod_cast hb
  have hbq : (0 : ℚ) < (b : ℚ) := by exact_mod_cast hb
  have hdm := Int.ediv_add_emod a (b : ℤ)
  have hr0 : 0 ≤ a % (b : ℤ) := Int.emod_nonneg a hbz.ne'
  have hrb : a % (b : ℤ) < (b : ℤ) := Int.emod_lt_of_pos a hbz
  rw [Int.fdiv_eq_ediv a hbz.le]
  symm
  rw [Int.floor_eq_iff]
  constructor
  · rw [le_div_iff hbq]
    have h1 : a / (b : ℤ) * (b : ℤ) ≤ a := by linarith
    exact_mod_cast h1
  · rw [div_lt_iff hbq]
    have h2 : a < (a / (b : ℤ) + 1) * (b : ℤ) := by linarith
    exact_mod_cast h2

theorem roundHalfEvenInt_eq (a : ℤ) (b : ℕ) (hb : 0 < b) :
    roundHalfEvenInt a b = roundHalfEven ((a : ℚ) / (b : ℚ)) := by
  have hbq : (0 : ℚ) < (b : ℚ) := by exact_mod_cast hb
  have hfd := fdiv_eq_floor a b hb
  set f := Int.fdiv a (b : ℤ) with hfdef
  have hxf : ⌊(a : ℚ) / (b : ℚ)⌋ = f := hfd.symm
  have hfrac : (a : ℚ) / (b : ℚ) - (f : ℚ) = ((a - b * f : ℤ) : ℚ) / (b : ℚ) := by
    push_cast
    field_simp
  have hlt : (((a - b * f : ℤ) : ℚ) / (b : ℚ) < 1 / 2) ↔ (2 * (a - b * f) < (b : ℤ)) := by
    rw [div_lt_div_iff hbq (by norm_num : (0:ℚ) < 2)]
    rw [show ((1:ℚ) * (b:ℚ)) = (((b : ℤ) : ℤ) : ℚ) from by push_cast; ring]
    rw [show (((a - b * f : ℤ) : ℚ) * 2) = ((2 * (a - b * f) : ℤ) : ℚ) from by push_cast; ring]
    exact Int.cast_lt
  have hgt : ((1 : ℚ) / 2 < ((a - b * f : ℤ) : ℚ) / (b : ℚ)) ↔ ((b : ℤ) < 2 * (a - b * f)) := by
    rw [div_lt_div_iff (by norm_num : (0:ℚ) < 2) hbq]
    rw [show ((1:ℚ) * (b:ℚ)) = (((b : ℤ) : ℤ) : ℚ) from by push_cast; ring]
    rw [show (((a - b * f : ℤ) : ℚ) * 2) = ((2 * (a - b * f) : ℤ) : ℚ) from by push_cast; ring]
    exact Int.cast_lt
  unfold roundHalfEvenInt roundHalfEven
  rw [← hfdef, hxf, hfrac]
  by_cases h1 : 2 * (a - b * f) < (b : ℤ)
  · rw [if_pos h1, if_pos (hlt.mpr h1)]
  · rw [if_neg h1, if_neg (fun hq => h1 (hlt.mp hq))]
    by_cases h2 : (b : ℤ) < 2 * (a - b * f)
    · rw [if_pos h2, if_pos (hgt.mpr h2)]
    · rw [if_neg h2, if_neg (fun hq => h2 (hgt.mp hq))]

theorem truncInt_eq (a : ℤ) (b : ℕ) (hb : 0 < b) :
    truncInt a b = ratTrunc ((a : ℚ) / (b : ℚ)) := by
  have hbq : (0 : ℚ) < (b : ℚ) := by exact_mod_cast hb
  unfold truncInt ratTrunc
  by_cases ha : 0 ≤ a
  · have haq : (0 : ℚ) ≤ (a : ℚ) / (b : ℚ) :=
      div_nonneg (by exact_mod_cast ha) hbq.le
    rw [if_pos ha, if_pos haq, fdiv_eq_floor a b hb]
  · push_neg at ha
    have haq : ¬ (0 : ℚ) ≤ (a : ℚ) / (b : ℚ) := by
      push_neg
      exact div_neg_of_neg_of_pos (by exact_mod_cast ha) hbq
    rw [if_neg (not_le.mpr ha), if_neg haq, fdiv_eq_floor (-a) b hb]
    rw [show (((-a : ℤ) : ℚ) / (b : ℚ)) = -((a : ℚ) / (b : ℚ)) from by push_cast; ring]

/-! ## Shape lemmas for the printed numerals -/

theorem natChars_head (a : ℕ) :
    ∃ c t, natChars a = c :: t ∧ c.isDigit = true := by
  rcases hn : natChars a with _ | ⟨c, t⟩
  · exact absurd hn (natChars_ne_nil a)
  · refine ⟨c, t, rfl, ?_⟩
    have hdall := natChars_all_isDigit a
    rw [hn] at hdall
    simp only [List.all_cons, Bool.and_eq_true] at hdall
    exact hdall.1

theorem natChars_no_dot (a : ℕ) : ∀ c ∈ natChars a, c ≠ '.' := fun c hc =>
  isDigit_ne_dot c ((List.all_eq_true.mp (natChars_all_isDigit a)) c hc)

theorem intChars_no_dot (n : ℤ) : ∀ c ∈ intChars n, c ≠ '.' := by
  intro c hc
  unfold intChars at hc
  rcases List.mem_append.mp hc with h | h
  · by_cases hn : n < 0
    · rw [if_pos hn] at h
      simp at h
      subst h
      decide
    · rw [if_neg hn] at h
      simp at h
  · exact natChars_no_dot n.natAbs c h

theorem fracChars_all_isDigit (p m : ℕ) : (fracChars p m).all Char.isDigit = true := by
  unfold fracChars
  rw [List.all_append, Bool.and_eq_true]
  constructor
  · rw [List.all_eq_true]
    intro c hc
    rw [List.eq_of_mem_replicate hc]
    decide
  · exact natChars_all_isDigit m

theorem fracChars_length (p m : ℕ) (hp : 1 ≤ p) (hm : m < 10 ^ p) :
    (fracChars p m).length = p := by
  unfold fracChars
  rw [List.length_append, List.length_replicate]
  have := natChars_length_le m p hp hm
  omega

theorem fracChars_val (p m : ℕ) : digitsValN (fracChars p m) = m := by
  unfold fracChars
  rw [digitsValN_append, digitsValN_replicate_zero, natChars_val]
  ring

/-! ## Sign handling in printing and parsing -/

theorem stripGo_cons_sign (neg : Bool) (body : List Char) :
    stripGo ((if neg then ['-'] else []) ++ body) =
      (if neg then ['-'] else []) ++ stripGo body := by
  cases neg
  · simp
  · simp only [if_true, List.cons_append, List.nil_append, List.singleton_append]
    rw [stripGo, if_neg]
    intro hcon
    exact absurd hcon.1 (by decide)

theorem parseDecCh_sign (neg : Bool) (body : List Char) (c : Char) (t : List Char)
    (hb : body = c :: t) (hc : c.isDigit = true) (u : DecNum)
    (hp : parseUnsignedCh body = some u) :
    parseDecCh ((if neg then ['-'] else []) ++ body) =
      some (if neg then (-u.1, u.2) else u) := by
  cases neg
  · simp only [if_neg (by simp : ¬ (false = true)), List.nil_append]
    subst hb
    rw [parseDecCh_cons_digit c t hc, hp]
  · simp only [if_pos rfl, List.singleton_append]
    subst hb
    simp [parseDecCh, hp]

theorem parse_intChars (n : ℤ) :
    ∃ dd : DecNum, parseDecCh (intChars n) = some dd ∧ decVal dd = (n : ℚ) := by
  obtain ⟨c, t, hct, hc⟩ := natChars_head n.natAbs
  have hall := natChars_all_isDigit n.natAbs
  have hval := natChars_val n.natAbs
  have hne := natChars_ne_nil n.natAbs
  have hpu : parseUnsignedCh (natChars n.natAbs) =
      some ((digitsValN (natChars n.natAbs) : ℤ), 0) :=
    parseUnsignedCh_digits _ hall hne
  unfold intChars
  by_cases hn : n < 0
  · rw [if_pos hn]
    refine ⟨(-(digitsValN (natChars n.natAbs) : ℤ), 0), ?_, ?_⟩
    · have := parseDecCh_sign true (natChars n.natAbs) c t hct hc _ hpu
      simpa using this
    · rw [hval]
      have hcast : ((n.natAbs : ℤ) : ℚ) = -(n : ℚ) := by
        have : (n.natAbs : ℤ) = -n := by omega
        rw [this]
        push_cast
        ring
      simp only [decVal]
      push_cast at hcast ⊢
      rw [pow_zero, div_one]
      linarith
  · rw [if_neg hn]
    refine ⟨((digitsValN (natChars n.natAbs) : ℤ), 0), ?_, ?_⟩
    · have := parseDecCh_sign false (natChars n.natAbs) c t hct hc _ hpu
      simpa using this
    · rw [hval]
      have : (n.natAbs : ℤ) = n := by omega
      simp only [decVal]
      rw [pow_zero, div_one]
      exact_mod_cast congrArg (fun z : ℤ => (z : ℚ)) this

/-! ## Parsing the stripped formatter output -/

theorem parseUnsigned_strip_body (p I M : ℕ) (hp : 1 ≤ p) (hM : M < 10 ^ p) :
    ∃ u : ℕ × ℕ,
      parseUnsignedCh (stripGo (natChars I ++ '.' :: fracChars p M)) =
        some ((u.1 : ℤ), u.2) ∧
      ((u.1 : ℚ) / 10 ^ u.2) = ((I : ℚ) * 10 ^ p + (M : ℚ)) / 10 ^ p := by
  have hfr_all : (fracChars p M).all Char.isDigit = true := fracChars_all_isDigit p M
  have hfr_len : (fracChars p M).length = p := fracChars_length p M hp hM
  have hfr_val : digitsValN (fracChars p M) = M := fracChars_val p M
  have hic_all := natChars_all_isDigit I
  have hic_ne := natChars_ne_nil I
  have hic_val := natChars_val I
  rw [stripGo_append_dot (natChars I) (fracChars p M) (natChars_no_dot I) hfr_all]
  by_cases h0 : (fracChars p M).getLast? = some '0'
  · rw [if_pos h0]
    by_cases hk : dropTrailingZeros (fracChars p M) = []
    · rw [if_pos hk]
      obtain ⟨z, hz⟩ := dropTrailingZeros_decomp (fracChars p M)
      rw [hk, List.nil_append] at hz
      have hM0 : M = 0 := by rw [← hfr_val, hz, digitsValN_replicate_zero]
      refine ⟨(digitsValN (natChars I), 0), ?_, ?_⟩
      · rw [List.append_nil]
        exact parseUnsignedCh_digits _ hic_all hic_ne
      · rw [hic_val, hM0, pow_zero, div_one]
        have h10 : ((10 : ℚ) ^ p) ≠ 0 := by positivity
        push_cast
        field_simp
    · rw [if_neg hk]
      set kept := dropTrailingZeros (fracChars p M) with hkept
      obtain ⟨z, hz⟩ := dropTrailingZeros_decomp (fracChars p M)
      rw [← hkept] at hz
      have hkept_all : kept.all Char.isDigit = true := by
        rw [List.all_eq_true]
        intro c hc
        exact (List.all_eq_true.mp hfr_all) c (mem_dropTrailingZeros (fracChars p M) c (hkept ▸ hc))
      have hMval : M = digitsValN kept * 10 ^ z := by
        rw [← hfr_val, hz, digitsValN_append, digitsValN_replicate_zero,
          List.length_replicate]
        ring
      have hplen : p = kept.length + z := by
        rw [← hfr_len, hz, List.length_append, List.length_replicate]
      refine ⟨(I * 10 ^ kept.length + digitsValN kept, kept.length), ?_, ?_⟩
      · rw [parseUnsignedCh_digits_dot (natChars I) kept hic_all hkept_all hic_ne]
        congr 1
        rw [hic_val]
        push_cast
        ring
      · have h10a : ((10 : ℚ) ^ kept.length) ≠ 0 := by positivity
        have h10b : ((10 : ℚ) ^ p) ≠ 0 := by positivity
        rw [hMval, hplen]
        push_cast
        rw [pow_add]
        field_simp
        ring
  · rw [if_neg h0]
    refine ⟨(I * 10 ^ p + M, p), ?_, ?_⟩
    · rw [parseUnsignedCh_digits_dot (natChars I) (fracChars p M) hic_all hfr_all hic_ne]
      rw [hfr_len, hfr_val, hic_val]
      congr 1
      push_cast
      ring
    · push_cast
      ring_nf

theorem strip_body_head (p I M : ℕ) :
    ∃ c t, stripGo (natChars I ++ '.' :: fracChars p M) = c :: t ∧ c.isDigit = true := by
  obtain ⟨c, t, hct, hc⟩ := natChars_head I
  rw [stripGo_append_dot (natChars I) (fracChars p M) (natChars_no_dot I)
    (fracChars_all_isDigit p M), hct]
  exact ⟨c, t ++ (if (fracChars p M).getLast? = some '0' then
      (if dropTrailingZeros (fracChars p M) = [] then []
       else '.' :: dropTrailingZeros (fracChars p M))
    else '.' :: fracChars p M), by simp, hc⟩

theorem stripGo_minus (body : List Char) : stripGo ('-' :: body) = '-' :: stripGo body := by
  simp only [stripGo]
  rw [if_neg]
  intro hcon
  exact absurd hcon.1 (by decide)

theorem parseDecCh_minus (body : List Char) :
    parseDecCh ('-' :: body) = Option.map (fun d : DecNum => (-d.1, d.2)) (parseUnsignedCh body) := by
  simp [parseDecCh]

theorem natAbs_castQ_neg (n : ℤ) (hn : n < 0) : ((n.natAbs : ℕ) : ℚ) = -(n : ℚ) := by
  have h1 : (n.natAbs : ℤ) = -n := by omega
  calc ((n.natAbs : ℕ) : ℚ) = (((n.natAbs : ℤ)) : ℚ) := (Int.cast_natCast n.natAbs).symm
    _ = ((-n : ℤ) : ℚ) := by rw [h1]
    _ = -(n : ℚ) := by push_cast; ring

theorem natAbs_castQ_nonneg (n : ℤ) (hn : ¬ n < 0) : ((n.natAbs : ℕ) : ℚ) = (n : ℚ) := by
  have h1 : (n.natAbs : ℤ) = n := by omega
  calc ((n.natAbs : ℕ) : ℚ) = (((n.natAbs : ℤ)) : ℚ) := (Int.cast_natCast n.natAbs).symm
    _ = (n : ℚ) := by rw [h1]

theorem parse_strip_fixedChars (p : ℕ) (n : ℤ) (hp : 1 ≤ p) :
    ∃ dd : DecNum, parseDecCh (stripGo (fixedChars p n)) = some dd ∧
      decVal dd = (n : ℚ) / 10 ^ p := by
  have hMlt : n.natAbs % 10 ^ p < 10 ^ p := Nat.mod_lt _ (by positivity)
  obtain ⟨u, hu, huval⟩ :=
    parseUnsigned_strip_body p (n.natAbs / 10 ^ p) (n.natAbs % 10 ^ p) hp hMlt
  obtain ⟨c, t, hct, hc⟩ := strip_body_head p (n.natAbs / 10 ^ p) (n.natAbs % 10 ^ p)
  have hbodyval : ((n.natAbs / 10 ^ p : ℕ) : ℚ) * 10 ^ p + ((n.natAbs % 10 ^ p : ℕ) : ℚ) =
      (n.natAbs : ℚ) := by
    have hdm := Nat.div_add_mod n.natAbs (10 ^ p)
    rw [Nat.mul_comm] at hdm
    exact_mod_cast hdm
  have hassoc : fixedChars p n = (if n < 0 then ['-'] else []) ++
      (natChars (n.natAbs / 10 ^ p) ++ '.' :: fracChars p (n.natAbs % 10 ^ p)) := by
    unfold fixedChars
    rw [List.append_assoc]
  by_cases hn : n < 0
  · rw [hassoc, if_pos hn, List.singleton_append, stripGo_minus, parseDecCh_minus]
    rw [hct, ← hct, hu]
    refine ⟨(-(u.1 : ℤ), u.2), rfl, ?_⟩
    simp only [decVal]
    have hneg : ((-(u.1 : ℤ) : ℤ) : ℚ) = -((u.1 : ℕ) : ℚ) := by push_cast; ring
    rw [hneg, neg_div, huval, hbodyval, natAbs_castQ_neg n hn]
    ring
  · rw [hassoc, if_neg hn, List.nil_append, hct, parseDecCh_cons_digit c t hc, ← hct, hu]
    refine ⟨((u.1 : ℤ), u.2), rfl, ?_⟩
    simp only [decVal]
    have hpos : (((u.1 : ℤ)) : ℚ) = ((u.1 : ℕ) : ℚ) := by push_cast; ring
    rw [hpos, huval, hbodyval, natAbs_castQ_nonneg n hn]

/-! ## The formatter as a function of the value; idempotence -/

theorem stripGo_intChars (n : ℤ) : stripGo (intChars n) = intChars n :=
  stripGo_no_dot _ (intChars_no_dot n)

theorem stripGo_idem_fixedChars (p : ℕ) (n : ℤ) :
    stripGo (stripGo (fixedChars p n)) = stripGo (fixedChars p n) := by
  have hassoc : fixedChars p n = (if n < 0 then ['-'] else []) ++
      (natChars (n.natAbs / 10 ^ p) ++ '.' :: fracChars p (n.natAbs % 10 ^ p)) := by
    unfold fixedChars
    rw [List.append_assoc]
  have hic_nd : ∀ c ∈ natChars (n.natAbs / 10 ^ p), c ≠ '.' := natChars_no_dot _
  have hfr_all : (fracChars p (n.natAbs % 10 ^ p)).all Char.isDigit = true :=
    fracChars_all_isDigit _ _
  have hpre_nd : ∀ c ∈ ((if n < 0 then ['-'] else []) ++ natChars (n.natAbs / 10 ^ p)),
      c ≠ '.' := by
    intro c hc
    rcases List.mem_append.mp hc with h | h
    · by_cases hn : n < 0
      · rw [if_pos hn] at h
        simp at h
        subst h
        decide
      · rw [if_neg hn] at h
        simp at h
    · exact hic_nd c h
  have h1 : stripGo (fixedChars p n) =
      ((if n < 0 then ['-'] else []) ++ natChars (n.natAbs / 10 ^ p)) ++
      (if (fracChars p (n.natAbs % 10 ^ p)).getLast? = some '0' then
        (if dropTrailingZeros (fracChars p (n.natAbs % 10 ^ p)) = [] then []
         else '.' :: dropTrailingZeros (fracChars p (n.natAbs % 10 ^ p)))
      else '.' :: fracChars p (n.natAbs % 10 ^ p)) := by
    rw [hassoc, ← List.append_assoc]
    exact stripGo_append_dot _ _ hpre_nd hfr_all
  by_cases h0 : (fracChars p (n.natAbs % 10 ^ p)).getLast? = some '0'
  · by_cases hk : dropTrailingZeros (fracChars p (n.natAbs % 10 ^ p)) = []
    · rw [h1, if_pos h0, if_pos hk, List.append_nil]
      exact stripGo_no_dot _ hpre_nd
    · rw [h1, if_pos h0, if_neg hk]
      have hkept_all :
          (dropTrailingZeros (fracChars p (n.natAbs % 10 ^ p))).all Char.isDigit = true := by
        rw [List.all_eq_true]
        intro c hc
        exact (List.all_eq_true.mp hfr_all) c (mem_dropTrailingZeros _ c hc)
      rw [stripGo_append_dot _ _ hpre_nd hkept_all,
        if_neg (dropTrailingZeros_getLast _ hk)]
  · rw [h1, if_neg h0, stripGo_append_dot _ _ hpre_nd hfr_all, if_neg h0]

theorem ratTrunc_intCast (z : ℤ) : ratTrunc ((z : ℤ) : ℚ) = z := by
  unfold ratTrunc
  by_cases h : (0 : ℚ) ≤ ((z : ℤ) : ℚ)
  · rw [if_pos h, Int.floor_intCast]
  · rw [if_neg h, show (-((z : ℤ) : ℚ)) = ((-z : ℤ) : ℚ) from by push_cast; ring,
      Int.floor_intCast]
    ring

theorem roundHalfEven_intCast (z : ℤ) : roundHalfEven ((z : ℤ) : ℚ) = z := by
  unfold roundHalfEven
  rw [Int.floor_intCast]
  rw [if_pos]
  rw [show ((z : ℤ) : ℚ) - ((z : ℤ) : ℚ) = 0 from by ring]
  norm_num

theorem pyFmtChars_eq (fmt : NumFormat) (d : DecNum) :
    pyFmtChars fmt d = formatQChars fmt (decVal d) := by
  cases fmt with
  | percentD =>
    simp only [pyFmtChars, formatQChars]
    congr 1
    rw [truncInt_eq d.1 (10 ^ d.2) (by positivity)]
    congr 1
    unfold decVal
    push_cast
    ring
  | percentF p =>
    simp only [pyFmtChars, formatQChars]
    congr 1
    rw [roundHalfEvenInt_eq (d.1 * 10 ^ p) (10 ^ d.2) (by positivity)]
    congr 1
    unfold decVal
    push_cast
    ring

theorem formatNumber_eq_formatQ (fmt : NumFormat) (d : DecNum) :
    formatNumber fmt d = formatQ fmt (decVal d) := by
  unfold formatNumber formatQ
  rw [pyFmtChars_eq]

theorem fmtPrec_fmtOfPlaces (P : ℕ) : fmtPrec (fmtOfPlaces P) := by
  unfold fmtOfPlaces
  by_cases h : P = 0
  · rw [if_pos h]
    exact trivial
  · rw [if_neg h]
    exact Nat.one_le_iff_ne_zero.mpr h

theorem parse_formatQ (fmt : NumFormat) (q : ℚ) (hf : fmtPrec fmt) :
    ∃ dd : DecNum, parseDecimal (formatQ fmt q) = some dd ∧ decVal dd = fmtValue fmt q := by
  cases fmt with
  | percentD =>
    obtain ⟨dd, h1, h2⟩ := parse_intChars (ratTrunc q)
    refine ⟨dd, ?_, h2⟩
    show parseDecCh (stripGo (formatQChars .percentD q)) = some dd
    simp only [formatQChars]
    rw [stripGo_intChars]
    exact h1
  | percentF p =>
    obtain ⟨dd, h1, h2⟩ := parse_strip_fixedChars p (roundHalfEven (q * 10 ^ p)) hf
    exact ⟨dd, h1, h2⟩

theorem stripTrailingZeros_formatQ (fmt : NumFormat) (q : ℚ) :
    stripTrailingZeros (formatQ fmt q) = formatQ fmt q := by
  unfold stripTrailingZeros formatQ
  congr 1
  show stripGo (stripGo (formatQChars fmt q)) = stripGo (formatQChars fmt q)
  cases fmt with
  | percentD =>
    simp only [formatQChars]
    rw [stripGo_intChars, stripGo_intChars]
  | percentF p => exact stripGo_idem_fixedChars p _

theorem formatQ_fmtValue (fmt : NumFormat) (q : ℚ) :
    formatQ fmt (fmtValue fmt q) = formatQ fmt q := by
  cases fmt with
  | percentD =>
    unfold formatQ
    simp only [formatQChars, fmtValue]
    rw [ratTrunc_intCast]
  | percentF p =>
    unfold formatQ
    simp only [formatQChars, fmtValue]
    have h10 : ((10 : ℚ) ^ p) ≠ 0 := by positivity
    rw [div_mul_cancel₀ _ h10, roundHalfEven_intCast]

/-! ## Attribute dictionary lemmas -/

theorem getVal_replaceVal_self (a : List (String × String)) (k v : String)
    (h : (getVal a k).isSome = true) : getVal (replaceVal a k v) k = some v := by
  induction a with
  | nil => simp [getVal] at h
  | cons kv rest ih =>
    rcases kv with ⟨kk, vv⟩
    simp only [replaceVal, List.map_cons]
    by_cases hk : kk = k
    · rw [if_pos hk]
      simp [getVal]
    · rw [if_neg hk]
      simp only [getVal, if_neg hk]
      simp only [getVal, if_neg hk] at h
      exact ih h

theorem getVal_replaceVal_ne (a : List (String × String)) (k v kk : String) (h : kk ≠ k) :
    getVal (replaceVal a k v) kk = getVal a kk := by
  induction a with
  | nil => rfl
  | cons kv rest ih =>
    rcases kv with ⟨k1, v1⟩
    simp only [replaceVal, List.map_cons]
    by_cases hk : k1 = k
    · rw [if_pos hk]
      have hne : ¬ (k = kk) := fun hc => h hc.symm
      have hne1 : ¬ (k1 = kk) := fun hc => h (hc.symm.trans hk ▸ rfl)
      rw [getVal, if_neg hne, getVal, if_neg (hk ▸ hne : ¬ (k1 = kk))]
      exact ih
    · rw [if_neg hk]
      rw [getVal, getVal]
      by_cases hkk : k1 = kk
      · rw [if_pos hkk, if_pos hkk]
      · rw [if_neg hkk, if_neg hkk]
        exact ih

theorem getVal_append (a b : List (String × String)) (k : String) :
    getVal (a ++ b) k = if (getVal a k).isSome then getVal a k else getVal b k := by
  induction a with
  | nil => simp [getVal]
  | cons kv rest ih =>
    rcases kv with ⟨k1, v1⟩
    rw [List.cons_append, getVal, getVal]
    by_cases hk : k1 = k
    · rw [if_pos hk, if_pos hk]
      simp
    · rw [if_neg hk, if_neg hk]
      exact ih

theorem getVal_setVal_self (a : List (String × String)) (k v : String) :
    getVal (setVal a k v) k = some v := by
  unfold setVal
  by_cases h : (getVal a k).isSome
  · rw [if_pos h]
    exact getVal_replaceVal_self a k v h
  · rw [if_neg h]
    rw [getVal_append]
    rw [if_neg h]
    simp [getVal]

theorem getVal_setVal_ne (a : List (String × String)) (k v kk : String) (h : kk ≠ k) :
    getVal (setVal a k v) kk = getVal a kk := by
  unfold setVal
  by_cases hs : (getVal a k).isSome
  · rw [if_pos hs]
    exact getVal_replaceVal_ne a k v kk h
  · rw [if_neg hs]
    rw [getVal_append]
    by_cases hkk : (getVal a kk).isSome
    · rw [if_pos hkk]
    · rw [if_neg hkk]
      simp only [getVal, if_neg (fun hc : k = kk => h hc.symm)]
      rw [Option.not_isSome_iff_eq_none] at hkk
      rw [hkk]

theorem getVal_delVal_self (a : List (String × String)) (k : String) :
    getVal (delVal a k) k = none := by
  induction a with
  | nil => rfl
  | cons kv rest ih =>
    rcases kv with ⟨k1, v1⟩
    unfold delVal at ih ⊢
    rw [List.filter_cons]
    by_cases hk : k1 = k
    · rw [if_neg (by simp [hk])]
      exact ih
    · rw [if_pos (by simp [hk])]
      rw [getVal, if_neg hk]
      exact ih

theorem getVal_delVal_ne (a : List (String × String)) (k kk : String) (h : kk ≠ k) :
    getVal (delVal a k) kk = getVal a kk := by
  induction a with
  | nil => rfl
  | cons kv rest ih =>
    rcases kv with ⟨k1, v1⟩
    unfold delVal at ih ⊢
    rw [List.filter_cons]
    by_cases hk : k1 = k
    · rw [if_neg (by simp [hk])]
      rw [getVal, if_neg (fun hc : k1 = kk => h (hc ▸ hk ▸ rfl))]
      exact ih
    · rw [if_pos (by simp [hk])]
      rw [getVal, getVal]
      by_cases hkk : k1 = kk
      · rw [if_pos hkk, if_pos hkk]
      · rw [if_neg hkk, if_neg hkk]
        exact ih

/-! ## Shape table and translation loop -/

theorem lookup_coords (ty : String) (coords : List String)
    (h : lookupAssoc position_attributes ty = some coords) :
    coords.Nodup ∧ "transform" ∉ coords := by
  simp only [position_attributes, lookupAssoc] at h
  split_ifs at h
  · simp only [Option.some.injEq] at h
    subst h
    decide
  · simp only [Option.some.injEq] at h
    subst h
    decide
  · simp only [Option.some.injEq] at h
    subst h
    decide
  · simp only [Option.some.injEq] at h
    subst h
    decide

theorem decVal_decAdd (a b : DecNum) : decVal (decAdd a b) = decVal a + decVal b := by
  unfold decVal decAdd
  have h1 : ((10 : ℚ) ^ a.2) ≠ 0 := by positivity
  have h2 : ((10 : ℚ) ^ b.2) ≠ 0 := by positivity
  push_cast
  rw [pow_add]
  field_simp

theorem translateLoop_spec (fmt : NumFormat) (d1 d2 : String) (p1 p2 : DecNum)
    (hd1 : parseDecimal d1 = some p1) (hd2 : parseDecimal d2 = some p2) :
    ∀ (cs : List String), cs.Nodup →
    ∀ (i : ℕ) (e : XMLElement),
    (∀ c ∈ cs, (parseDecimal ((getVal e.attrib c).getD "0")).isSome = true) →
    ∃ eN : XMLElement, translateLoop fmt (d1, d2) i cs e = .ok eN ∧ eN.tag = e.tag ∧
      (∀ k, k ∉ cs → getVal eN.attrib k = getVal e.attrib k) ∧
      (∀ j (hj : j < cs.length), ∃ v : DecNum,
        parseDecimal ((getVal e.attrib (cs.get ⟨j, hj⟩)).getD "0") = some v ∧
        getVal eN.attrib (cs.get ⟨j, hj⟩) =
          some (formatNumber fmt (decAdd v (if (i + j) % 2 = 0 then p1 else p2)))) := by
  intro cs
  induction cs with
  | nil =>
    intro _ i e _
    refine ⟨e, rfl, rfl, fun k _ => rfl, fun j hj => absurd hj (by simp)⟩
  | cons c cs ih =>
    intro hnd i e hvals
    have hc_notmem : c ∉ cs := (List.nodup_cons.mp hnd).1
    have hnd2 : cs.Nodup := (List.nodup_cons.mp hnd).2
    obtain ⟨v, hv⟩ := Option.isSome_iff_exists.mp (hvals c (List.mem_cons_self c cs))
    have hdelta : parseDecimal (if i % 2 = 0 then d1 else d2) =
        some (if i % 2 = 0 then p1 else p2) := by
      by_cases hi : i % 2 = 0
      · rw [if_pos hi, if_pos hi, hd1]
      · rw [if_neg hi, if_neg hi, hd2]
    set w : String := formatNumber fmt (decAdd v (if i % 2 = 0 then p1 else p2)) with hw
    have hstep : translateStep fmt (d1, d2) i c e =
        .ok { tag := e.tag, attrib := setVal e.attrib c w } := by
      unfold translateStep
      rw [hv, hdelta]
    have hvals1 : ∀ x ∈ cs,
        (parseDecimal ((getVal (setVal e.attrib c w) x).getD "0")).isSome = true := by
      intro x hx
      have hxc : x ≠ c := fun hxc => hc_notmem (hxc ▸ hx)
      rw [getVal_setVal_ne _ _ _ _ hxc]
      exact hvals x (List.mem_cons_of_mem c hx)
    obtain ⟨e2, hloop, htag2, huntouched2, hcoords2⟩ :=
      ih hnd2 (i + 1) ⟨e.tag, setVal e.attrib c w⟩ hvals1
    refine ⟨e2, ?_, htag2, ?_, ?_⟩
    · show translateLoop fmt (d1, d2) i (c :: cs) e = .ok e2
      unfold translateLoop
      rw [hstep]
      exact hloop
    · intro k hk
      have hkc : k ≠ c := fun hc2 => hk (hc2 ▸ List.mem_cons_self c cs)
      have hkcs : k ∉ cs := fun hc2 => hk (List.mem_cons_of_mem c hc2)
      rw [huntouched2 k hkcs]
      exact getVal_setVal_ne _ _ _ _ hkc
    · intro j hj
      match j with
      | 0 =>
        refine ⟨v, hv, ?_⟩
        show getVal e2.attrib c = some w
        rw [huntouched2 c hc_notmem]
        show getVal (setVal e.attrib c w) c = some w
        rw [getVal_setVal_self]
      | jj + 1 =>
        have hjj : jj < cs.length := by
          simp only [List.length_cons] at hj
          omega
        obtain ⟨v2, hv2, hget2⟩ := hcoords2 jj hjj
        have hmem : cs.get ⟨jj, hjj⟩ ∈ cs := List.get_mem cs jj hjj
        have hne : cs.get ⟨jj, hjj⟩ ≠ c := fun hc2 => hc_notmem (hc2 ▸ hmem)
        rw [getVal_setVal_ne e.attrib c w _ hne] at hv2
        refine ⟨v2, hv2, ?_⟩
        show getVal e2.attrib (cs.get ⟨jj, hjj⟩) =
          some (formatNumber fmt (decAdd v2 (if (i + (jj + 1)) % 2 = 0 then p1 else p2)))
        rw [show i + (jj + 1) = i + 1 + jj from by omega]
        exact hget2

theorem translateElement_spec (fmt : NumFormat) (e : XMLElement) (d1 d2 : String)
    (p1 p2 : DecNum) (tyCh : List Char) (coords : List String)
    (hd1 : parseDecimal d1 = some p1) (hd2 : parseDecimal d2 = some p2)
    (hty : (splitOnCh '}' e.tag.data).get? 1 = some tyCh)
    (hcoords : lookupAssoc position_attributes (String.mk tyCh) = some coords)
    (htr : (getVal e.attrib "transform").isSome = true)
    (hvals : ∀ c ∈ coords, (parseDecimal ((getVal e.attrib c).getD "0")).isSome = true) :
    ∃ eN : XMLElement, translateElement fmt e (d1, d2) = .ok eN ∧ eN.tag = e.tag ∧
      getVal eN.attrib "transform" = none ∧
      (∀ j (hj : j < coords.length), ∃ v : DecNum,
        parseDecimal ((getVal e.attrib (coords.get ⟨j, hj⟩)).getD "0") = some v ∧
        getVal eN.attrib (coords.get ⟨j, hj⟩) =
          some (formatNumber fmt (decAdd v (if j % 2 = 0 then p1 else p2)))) ∧
      (∀ k, k ∉ coords → k ≠ "transform" → getVal eN.attrib k = getVal e.attrib k) := by
  obtain ⟨hnd, htrans_notmem⟩ := lookup_coords _ _ hcoords
  obtain ⟨e1, hloop, htag1, huntouched1, hcoords1⟩ :=
    translateLoop_spec fmt d1 d2 p1 p2 hd1 hd2 coords hnd 0 e hvals
  have htr1 : (getVal e1.attrib "transform").isSome = true := by
    rw [huntouched1 "transform" htrans_notmem]
    exact htr
  have hdel : pyDelAttr e1.attrib "transform" = .ok (delVal e1.attrib "transform") := by
    unfold pyDelAttr
    rw [if_pos htr1]
  refine ⟨⟨e1.tag, delVal e1.attrib "transform"⟩, ?_, htag1, ?_, ?_, ?_⟩
  · simp only [translateElement, hty, hcoords, hloop, hdel]
  · exact getVal_delVal_self _ _
  · intro j hj
    obtain ⟨v, hv, hget⟩ := hcoords1 j hj
    have hne : coords.get ⟨j, hj⟩ ≠ "transform" := fun hc =>
      htrans_notmem (hc ▸ List.get_mem coords j hj)
    refine ⟨v, hv, ?_⟩
    show getVal (delVal e1.attrib "transform") (coords.get ⟨j, hj⟩) = _
    rw [getVal_delVal_ne _ _ _ hne, hget]
    rw [Nat.zero_add]
  · intro k hk hktr
    show getVal (delVal e1.attrib "transform") k = getVal e.attrib k
    rw [getVal_delVal_ne _ _ _ hktr]
    exact huntouched1 k hk

theorem handleTransforms_eq_translate (fmt : NumFormat) (e : XMLElement) (t : String)
    (g : List Char × List Char)
    (htr : getVal e.attrib "transform" = some t)
    (hsub : containsSeq t.data ("translate".data) = true)
    (hre : reTranslateSearchCh t.data = some g) :
    handleTransforms fmt e = translateElement fmt e (String.mk g.1, String.mk g.2) := by
  simp only [handleTransforms, htr, hre, hsub, eq_self_iff_true, if_true]

theorem handleTransforms_spec (fmt : NumFormat) (e : XMLElement) (t : String)
    (g1 g2 : List Char) (p1 p2 : DecNum) (tyCh : List Char) (coords : List String)
    (htr : getVal e.attrib "transform" = some t)
    (hsub : containsSeq t.data ("translate".data) = true)
    (hre : reTranslateSearchCh t.data = some (g1, g2))
    (hd1 : parseDecimal (String.mk g1) = some p1)
    (hd2 : parseDecimal (String.mk g2) = some p2)
    (hty : (splitOnCh '}' e.tag.data).get? 1 = some tyCh)
    (hcoords : lookupAssoc position_attributes (String.mk tyCh) = some coords)
    (hvals : ∀ c ∈ coords, (parseDecimal ((getVal e.attrib c).getD "0")).isSome = true) :
    foldOutcome fmt (decVal p1) (decVal p2) coords e := by
  obtain ⟨eN, helem, htag, htrN, hcoordsN, huntouchedN⟩ :=
    translateElement_spec fmt e (String.mk g1) (String.mk g2) p1 p2 tyCh coords
      hd1 hd2 hty hcoords (by rw [htr]; rfl) hvals
  refine ⟨eN, ?_, htag, htrN, ?_, huntouchedN⟩
  · rw [handleTransforms_eq_translate fmt e t (g1, g2) htr hsub hre]
    exact helem
  · intro j hj
    obtain ⟨v, hv, hget⟩ := hcoordsN j hj
    refine ⟨decVal v, by rw [hv]; rfl, ?_⟩
    rw [hget, formatNumber_eq_formatQ, decVal_decAdd,
      apply_ite decVal (j % 2 = 0) p1 p2]

/-! ## Points cleaning -/

theorem formatTokens_length (fmt : NumFormat) :
    ∀ (ts : List (List Char)) (vals : List String),
      formatTokens fmt ts = .ok vals → vals.length = ts.length := by
  intro ts
  induction ts with
  | nil =>
    intro vals h
    simp only [formatTokens] at h
    cases h
    rfl
  | cons t ts ih =>
    intro vals h
    simp only [formatTokens] at h
    rcases hp : parseDecCh t with _ | d
    · rw [hp] at h
      cases h
    · rw [hp] at h
      rcases hrest : formatTokens fmt ts with er | rest
      · rw [hrest] at h
        cases h
      · rw [hrest] at h
        cases h
        simp only [List.length_cons]
        rw [ih rest hrest]

theorem pairChunks_even : ∀ (vals : List String), vals.length % 2 = 0 →
    ∃ ps, pairChunks vals = Except.ok ps
  | [], _ => ⟨[], rfl⟩
  | [a], h => by simp at h
  | a :: b :: rest, h => by
    obtain ⟨ps, hp⟩ := pairChunks_even rest (by simp only [List.length_cons] at h; omega)
    exact ⟨(a ++ "," ++ b) :: ps, by simp only [pairChunks, hp]⟩

theorem pairChunks_odd : ∀ (vals : List String), vals.length % 2 = 1 →
    pairChunks vals = Except.error .indexError
  | [], h => by simp at h
  | [a], _ => rfl
  | a :: b :: rest, h => by
    have hrec := pairChunks_odd rest (by simp only [List.length_cons] at h; omega)
    simp only [pairChunks, hrec]

theorem cleanDecimalsEl_points (fmt : NumFormat) (tag pv : String) :
    cleanDecimalsEl fmt ⟨tag, [("points", pv)]⟩ =
      match cleanPoints fmt pv with
      | .error er => .error er
      | .ok out => .ok ⟨tag, [("points", out)]⟩ := by
  show (match cleanPoints fmt pv with
    | Except.error er => Except.error er
    | Except.ok out =>
        cleanDecimalsKeys fmt [] ⟨tag, setVal [("points", pv)] "points" out⟩) = _
  rcases hc : cleanPoints fmt pv with er | out <;> rfl

/-! ## Tags without a namespace separator -/

theorem splitOnChAux_no_sep (sep : Char) :
    ∀ (cs acc : List Char), sep ∉ cs → splitOnChAux sep cs acc = [acc.reverse ++ cs] := by
  intro cs
  induction cs with
  | nil =>
    intro acc _
    simp [splitOnChAux]
  | cons c rest ih =>
    intro acc hmem
    have hc : c ≠ sep := fun hc => hmem (hc ▸ List.mem_cons_self c rest)
    simp only [splitOnChAux, if_neg (fun hcc : c = sep => hc hcc)]
    rw [ih (c :: acc) (fun hm => hmem (List.mem_cons_of_mem c hm))]
    simp

theorem splitOnCh_no_sep (sep : Char) (cs : List Char) (h : sep ∉ cs) :
    splitOnCh sep cs = [cs] := by
  unfold splitOnCh
  rw [splitOnChAux_no_sep sep cs [] h]
  simp

/-! # Claims -/

/-- C1: for every node whose tag's local name is in the shape table
(rect: x,y; circle/ellipse: cx,cy; line: x1,y1,x2,y2) and whose transform
attribute contains a translate(dx, dy) expression (the `re_translate`
pattern matching with groups g1, g2), transform folding adds dx to each
even-indexed position attribute and dy to each odd-indexed one (reading a
missing attribute as 0), writes back each sum formatted by the Numeric
Formatter, and deletes the transform attribute; in particular folding
`<rect x="1" y="2" transform="translate(5,3)"/>` at one decimal place
yields `<rect x="6" y="5"/>` with no transform attribute. -/
theorem c1_transform_folding :
    (∀ (P : ℕ) (e : XMLElement) (t : String) (g1 g2 : List Char) (p1 p2 : DecNum)
      (tyCh : List Char) (coords : List String),
      getVal e.attrib "transform" = some t →
      containsSeq t.data ("translate".data) = true →
      reTranslateSearchCh t.data = some (g1, g2) →
      parseDecimal (String.mk g1) = some p1 →
      parseDecimal (String.mk g2) = some p2 →
      (splitOnCh '}' e.tag.data).get? 1 = some tyCh →
      lookupAssoc position_attributes (String.mk tyCh) = some coords →
      (∀ c ∈ coords, (parseDecimal ((getVal e.attrib c).getD "0")).isSome = true) →
      foldOutcome (fmtOfPlaces P) (decVal p1) (decVal p2) coords e) ∧
    handleTransforms (fmtOfPlaces 1)
        ⟨"\x7bhttp://www.w3.org/2000/svg\x7drect",
         [("x", "1"), ("y", "2"), ("transform", "translate(5,3)")]⟩ =
      .ok ⟨"\x7bhttp://www.w3.org/2000/svg\x7drect", [("x", "6"), ("y", "5")]⟩ :=
  ⟨fun P e t g1 g2 p1 p2 tyCh coords h1 h2 h3 h4 h5 h6 h7 h8 =>
    handleTransforms_spec (fmtOfPlaces P) e t g1 g2 p1 p2 tyCh coords h1 h2 h3 h4 h5 h6 h7 h8,
   by decide⟩

/-- Witness for C1: folding `translate(-2,4)` on
`<circle cx="1.5" transform="translate(-2,4)"/>` at one decimal place. -/
theorem c1_transform_folding_witness :
    foldOutcome (fmtOfPlaces 1) (decVal ((-2 : ℤ), 0)) (decVal ((4 : ℤ), 0)) ["cx", "cy"]
      ⟨"\x7bs\x7dcircle", [("cx", "1.5"), ("transform", "translate(-2,4)")]⟩ :=
  c1_transform_folding.1 1
    ⟨"\x7bs\x7dcircle", [("cx", "1.5"), ("transform", "translate(-2,4)")]⟩
    "translate(-2,4)" ("-2".data) ("4".data) ((-2 : ℤ), 0) ((4 : ℤ), 0)
    ("circle".data) ["cx", "cy"]
    (by decide) (by decide) (by decide) (by decide) (by decide) (by decide) (by decide)
    (by decide)

/-- C2 counterexample: the claim maps P=0, "7.8" to "8", but the code's
`"%d"` conversion truncates toward zero and yields "7". -/
theorem c2_format_counterexample :
    formatNumberStr (fmtOfPlaces 0) "7.8" = some "7" ∧ ("7" : String) ≠ "8" := by
  constructor <;> decide

/-- C2 (amended): for every numeric string parseable as a number and every
configured precision P ≥ 0, the Numeric Formatter returns, for P ≥ 1, the
value rounded (ties to even) to P decimal places in fixed-point form and,
for P = 0, the value truncated toward zero with no decimal point — in both
cases with superfluous trailing fractional zeros stripped (and the decimal
point stripped when all fractional digits were zero); in particular P=1
maps 2.0 to "2" and 2.46 to "2.5", P=2 maps 3.10 to "3.1", and P=0 maps
7.8 to "7" (not "8": `%d` truncates). -/
theorem c2_format_amended :
    (∀ (P : ℕ) (s : String) (d : DecNum), parseDecimal s = some d →
      ∃ t, formatNumberStr (fmtOfPlaces P) s = some t ∧
        Option.map decVal (parseDecimal t) = some (fmtValue (fmtOfPlaces P) (decVal d)) ∧
        stripTrailingZeros t = t) ∧
    formatNumberStr (fmtOfPlaces 1) "2.0" = some "2" ∧
    formatNumberStr (fmtOfPlaces 1) "2.46" = some "2.5" ∧
    formatNumberStr (fmtOfPlaces 2) "3.10" = some "3.1" ∧
    formatNumberStr (fmtOfPlaces 0) "7.8" = some "7" := by
  refine ⟨?_, by decide, by decide, by decide, by decide⟩
  intro P s d h
  refine ⟨formatNumber (fmtOfPlaces P) d, ?_, ?_, ?_⟩
  · unfold formatNumberStr
    rw [h]
    rfl
  · rw [formatNumber_eq_formatQ]
    obtain ⟨dd, h1, h2⟩ := parse_formatQ (fmtOfPlaces P) (decVal d) (fmtPrec_fmtOfPlaces P)
    rw [h1]
    simp [h2]
  · rw [formatNumber_eq_formatQ]
    exact stripTrailingZeros_formatQ _ _

/-- Witness for C2 (amended): P=2 on "3.105" (an exact decimal tie,
rounded half-to-even to 3.10 and stripped to "3.1"). -/
theorem c2_format_amended_witness :
    ∃ t, formatNumberStr (fmtOfPlaces 2) "3.105" = some t ∧
      Option.map decVal (parseDecimal t) =
        some (fmtValue (fmtOfPlaces 2) (decVal ((3105 : ℤ), 3))) ∧
      stripTrailingZeros t = t :=
  c2_format_amended.1 2 "3.105" ((3105 : ℤ), 3) (by decide)

/-- C3 counterexample: on `transform="scale(2,3) translate(5,6)"` the code
takes its deltas from the first parenthesised number pair — scale's
arguments (2,3) — not from the translate, so the rect at (0,0) moves to
(2,3) instead of (5,6). -/
theorem c3_translate_deltas_counterexample :
    reTranslateSearchCh ("scale(2,3) translate(5,6)".data) = some ("2".data, "3".data) ∧
    handleTransforms (fmtOfPlaces 1)
        ⟨"\x7bs\x7drect", [("x", "0"), ("y", "0"), ("transform", "scale(2,3) translate(5,6)")]⟩ =
      .ok ⟨"\x7bs\x7drect", [("x", "2"), ("y", "3")]⟩ := by
  constructor <;> decide

/-- C3 (amended): for a transform combining other functions with a
translate, folding extracts dx and dy from the first parenthesised pair of
numbers anywhere in the attribute — the translate's arguments only when no
other parenthesised pair precedes them — and otherwise ignores the other
transform functions (the node is handed to `_translateElement` with that
pair; nothing else of the attribute is interpreted). -/
theorem c3_translate_deltas_amended :
    (∀ (fmt : NumFormat) (e : XMLElement) (t : String) (g : List Char × List Char),
      getVal e.attrib "transform" = some t →
      containsSeq t.data ("translate".data) = true →
      reTranslateSearchCh t.data = some g →
      handleTransforms fmt e = translateElement fmt e (String.mk g.1, String.mk g.2)) ∧
    reTranslateSearchCh ("translate(5,6) scale(2,3)".data) = some ("5".data, "6".data) ∧
    reTranslateSearchCh ("scale(2,3) translate(5,6)".data) = some ("2".data, "3".data) :=
  ⟨handleTransforms_eq_translate, by decide, by decide⟩

/-- Witness for C3 (amended): the scale-first attribute hands `("2","3")`
to the translation routine. -/
theorem c3_translate_deltas_amended_witness :
    handleTransforms (fmtOfPlaces 1)
        ⟨"\x7bs\x7drect", [("x", "0"), ("y", "0"), ("transform", "scale(2,3) translate(5,6)")]⟩ =
      translateElement (fmtOfPlaces 1)
        ⟨"\x7bs\x7drect", [("x", "0"), ("y", "0"), ("transform", "scale(2,3) translate(5,6)")]⟩
        (String.mk ("2".data), String.mk ("3".data)) :=
  c3_translate_deltas_amended.1 (fmtOfPlaces 1)
    ⟨"\x7bs\x7drect", [("x", "0"), ("y", "0"), ("transform", "scale(2,3) translate(5,6)")]⟩
    "scale(2,3) translate(5,6)" ("2".data, "3".data)
    (by decide) (by decide) (by decide)

/-- C4 counterexample: the single-argument form `translate(5)` is not
matched by `re_translate` (the pattern needs two number groups), so the
rect keeps its transform attribute and its position is not updated,
contradicting the claim that the single-argument form is folded. -/
theorem c4_single_arg_counterexample :
    handleTransforms (fmtOfPlaces 1)
        ⟨"\x7bs\x7drect", [("x", "1"), ("transform", "translate(5)")]⟩ =
      .ok ⟨"\x7bs\x7drect", [("x", "1"), ("transform", "translate(5)")]⟩ ∧
    getVal [("x", "1"), ("transform", "translate(5)")] "transform" =
      some "translate(5)" ∧
    reTranslateSearchCh ("translate(5)".data) = none := by
  refine ⟨by decide, by decide, by decide⟩

/-- C4 (amended): after the transform-folding pass, every node whose
transform attribute contains a translate expression with two numeric
components (so that `re_translate` matches, comma optional) and whose tag
is a recognized shape type has no transform attribute remaining and its
position attributes reflect the translated value; the single-argument form
`translate(dx)` is not matched and its transform is left in place. -/
theorem c4_pure_translate_amended (P : ℕ) (e : XMLElement) (t : String)
    (g1 g2 : List Char) (p1 p2 : DecNum) (tyCh : List Char) (coords : List String)
    (htr : getVal e.attrib "transform" = some t)
    (hsub : containsSeq t.data ("translate".data) = true)
    (hre : reTranslateSearchCh t.data = some (g1, g2))
    (hd1 : parseDecimal (String.mk g1) = some p1)
    (hd2 : parseDecimal (String.mk g2) = some p2)
    (hty : (splitOnCh '}' e.tag.data).get? 1 = some tyCh)
    (hcoords : lookupAssoc position_attributes (String.mk tyCh) = some coords)
    (hvals : ∀ c ∈ coords, (parseDecimal ((getVal e.attrib c).getD "0")).isSome = true) :
    ∃ eN : XMLElement, handleTransforms (fmtOfPlaces P) e = .ok eN ∧
      getVal eN.attrib "transform" = none ∧
      (∀ j (hj : j < coords.length), ∃ v : ℚ,
        Option.map decVal (parseDecimal ((getVal e.attrib (coords.get ⟨j, hj⟩)).getD "0")) =
          some v ∧
        getVal eN.attrib (coords.get ⟨j, hj⟩) =
          some (formatQ (fmtOfPlaces P) (v + (if j % 2 = 0 then decVal p1 else decVal p2)))) := by
  obtain ⟨eN, hrun, _, htrN, hcoordsN, _⟩ :=
    handleTransforms_spec (fmtOfPlaces P) e t g1 g2 p1 p2 tyCh coords
      htr hsub hre hd1 hd2 hty hcoords hvals
  exact ⟨eN, hrun, htrN, hcoordsN⟩

/-- Witness for C4 (amended): the two-argument `translate(5,3)` on a rect
loses its transform attribute. -/
theorem c4_pure_translate_amended_witness :
    ∃ eN : XMLElement,
      handleTransforms (fmtOfPlaces 1)
          ⟨"\x7bs\x7drect", [("x", "1"), ("y", "2"), ("transform", "translate(5,3)")]⟩ =
        .ok eN ∧
      getVal eN.attrib "transform" = none ∧
      (∀ j (hj : j < (["x", "y"] : List String).length), ∃ v : ℚ,
        Option.map decVal (parseDecimal
          ((getVal [("x", "1"), ("y", "2"), ("transform", "translate(5,3)")]
            ((["x", "y"] : List String).get ⟨j, hj⟩)).getD "0")) = some v ∧
        getVal eN.attrib ((["x", "y"] : List String).get ⟨j, hj⟩) =
          some (formatQ (fmtOfPlaces 1)
            (v + (if j % 2 = 0 then decVal ((5 : ℤ), 0) else decVal ((3 : ℤ), 0))))) :=
  c4_pure_translate_amended 1
    ⟨"\x7bs\x7drect", [("x", "1"), ("y", "2"), ("transform", "translate(5,3)")]⟩
    "translate(5,3)" ("5".data) ("3".data) ((5 : ℤ), 0) ((3 : ℤ), 0)
    ("rect".data) ["x", "y"]
    (by decide) (by decide) (by decide) (by decide) (by decide) (by decide) (by decide)
    (by decide)

/-- C5 counterexample: a comma followed by whitespace produces an empty
token under `re.split('\s+|,')`, and `float("")` raises, so cleaning
`points="1, 2 3, 4"` raises a ValueError instead of producing a value —
contradicting the claim that any mix including comma-followed-by-
whitespace is handled. -/
theorem c5_points_counterexample :
    cleanDecimalsEl (fmtOfPlaces 1) ⟨"polyline", [("points", "1, 2 3, 4")]⟩ =
      .error .valueError ∧
    reCoordSplit ("1, 2 3, 4".data) =
      ["1".data, [], "2".data, "3".data, [], "4".data] := by
  refine ⟨by decide, by decide⟩

/-- C5 (amended): for every points attribute value whose tokens under the
`\s+|,` split all parse as numbers (i.e. the separators are single commas
or whitespace runs, never a comma adjacent to whitespace or another comma,
which would yield an empty token and an error) and whose token count is
even, decimal cleaning formats each token with the Numeric Formatter and
rejoins them as "x,y" pairs separated by single spaces; in particular
points="1.20,2.00 3.456,4.0" cleaned at precision 1 yields
points="1.2,2 3.5,4". -/
theorem c5_points_amended :
    (∀ (P : ℕ) (tag pv : String) (vals : List String),
      formatTokens (fmtOfPlaces P) (reCoordSplit pv.data) = .ok vals →
      vals.length % 2 = 0 →
      ∃ pairs, pairChunks vals = .ok pairs ∧
        cleanDecimalsEl (fmtOfPlaces P) ⟨tag, [("points", pv)]⟩ =
          .ok ⟨tag, [("points", joinSp pairs)]⟩) ∧
    cleanDecimalsEl (fmtOfPlaces 1) ⟨"polyline", [("points", "1.20,2.00 3.456,4.0")]⟩ =
      .ok ⟨"polyline", [("points", "1.2,2 3.5,4")]⟩ := by
  refine ⟨?_, by decide⟩
  intro P tag pv vals htok heven
  obtain ⟨ps, hp⟩ := pairChunks_even vals heven
  refine ⟨ps, hp, ?_⟩
  rw [cleanDecimalsEl_points]
  simp only [cleanPoints, htok, hp]

/-- Witness for C5 (amended): the claim's own example through the general
statement. -/
theorem c5_points_amended_witness :
    ∃ pairs, pairChunks ["1.2", "2", "3.5", "4"] = .ok pairs ∧
      cleanDecimalsEl (fmtOfPlaces 1) ⟨"polyline", [("points", "1.20,2.00 3.456,4.0")]⟩ =
        .ok ⟨"polyline", [("points", joinSp pairs)]⟩ :=
  c5_points_amended.1 1 "polyline" "1.20,2.00 3.456,4.0" ["1.2", "2", "3.5", "4"]
    (by decide) (by decide)

/-- C6: for every points attribute whose flattened token sequence has an
odd length, decimal cleaning raises an error instead of producing an
output value for that attribute (a ValueError if some token fails to
parse, otherwise the IndexError from the unmatched trailing token). -/
theorem c6_points_odd (fmt : NumFormat) (tag pv : String)
    (h : (reCoordSplit pv.data).length % 2 = 1) :
    ∃ er, cleanDecimalsEl fmt ⟨tag, [("points", pv)]⟩ = .error er := by
  rw [cleanDecimalsEl_points]
  rcases htok : formatTokens fmt (reCoordSplit pv.data) with er | vals
  · refine ⟨er, ?_⟩
    simp only [cleanPoints, htok]
  · have hlen : vals.length % 2 = 1 := by
      rw [formatTokens_length fmt _ _ htok]
      exact h
    refine ⟨.indexError, ?_⟩
    simp only [cleanPoints, htok, pairChunks_odd vals hlen]

/-- Witness for C6: `points="1,2,3"` raises. -/
theorem c6_points_odd_witness :
    ∃ er, cleanDecimalsEl (fmtOfPlaces 1) ⟨"polyline", [("points", "1,2,3")]⟩ = .error er :=
  c6_points_odd (fmtOfPlaces 1) "polyline" "1,2,3" (by decide)

/-- C7: for every node whose tag's local name is not in the shape table,
transform folding leaves the node entirely unchanged: its transform
attribute stays, and none of its attributes are modified. -/
theorem c7_unfoldable_shape (fmt : NumFormat) (e : XMLElement) (tyCh : List Char)
    (hty : (splitOnCh '}' e.tag.data).get? 1 = some tyCh)
    (hlk : lookupAssoc position_attributes (String.mk tyCh) = none) :
    handleTransforms fmt e = .ok e := by
  rcases htr : getVal e.attrib "transform" with _ | t
  · simp only [handleTransforms, htr]
  · simp only [handleTransforms, htr]
    by_cases hsub : containsSeq t.data ("translate".data) = true
    · rw [if_pos hsub]
      rcases hre : reTranslateSearchCh t.data with _ | g
      · rfl
      · simp only [translateElement, hty, hlk]
    · rw [if_neg hsub]

/-- Witness for C7: a `text` node keeps its `translate(2,2)` transform and
its attributes. -/
theorem c7_unfoldable_shape_witness :
    handleTransforms (fmtOfPlaces 1)
        ⟨"\x7bs\x7dtext", [("x", "1"), ("transform", "translate(2,2)")]⟩ =
      .ok ⟨"\x7bs\x7dtext", [("x", "1"), ("transform", "translate(2,2)")]⟩ :=
  c7_unfoldable_shape (fmtOfPlaces 1)
    ⟨"\x7bs\x7dtext", [("x", "1"), ("transform", "translate(2,2)")]⟩
    ("text".data) (by decide) (by decide)

/-- C8: for every numeric string and every precision P ≥ 0, the Numeric
Formatter is idempotent: formatting the already-formatted output again at
the same precision returns it unchanged. -/
theorem c8_format_idempotent (P : ℕ) (s t : String)
    (h : formatNumberStr (fmtOfPlaces P) s = some t) :
    formatNumberStr (fmtOfPlaces P) t = some t := by
  unfold formatNumberStr at h
  obtain ⟨d, hd, hfmt⟩ := Option.map_eq_some'.mp h
  rw [formatNumber_eq_formatQ] at hfmt
  obtain ⟨dd, h1, h2⟩ := parse_formatQ (fmtOfPlaces P) (decVal d) (fmtPrec_fmtOfPlaces P)
  unfold formatNumberStr
  rw [← hfmt, h1]
  simp only [Option.map_some']
  rw [formatNumber_eq_formatQ, h2, formatQ_fmtValue]

/-- Witness for C8: formatting "2.46" at P=1 gives "2.5", and formatting
"2.5" again returns it unchanged. -/
theorem c8_format_idempotent_witness :
    formatNumberStr (fmtOfPlaces 1) "2.5" = some "2.5" :=
  c8_format_idempotent 1 "2.46" "2.5" (by decide)

/-- C9: transform folding assumes every transform-bearing node's tag
carries an XML namespace of the form `{uri}local`; on a node whose
transform contains a matching translate pair but whose tag contains no
`'}'` character, the pass fails with an indexing error
(`tag.split('}')[1]`) instead of folding or leaving the node unchanged. -/
theorem c9_namespace_assumption (fmt : NumFormat) (e : XMLElement) (t : String)
    (g : List Char × List Char)
    (htr : getVal e.attrib "transform" = some t)
    (hsub : containsSeq t.data ("translate".data) = true)
    (hre : reTranslateSearchCh t.data = some g)
    (hbr : '}' ∉ e.tag.data) :
    handleTransforms fmt e = .error .indexError := by
  rw [handleTransforms_eq_translate fmt e t g htr hsub hre]
  simp only [translateElement, splitOnCh_no_sep '}' e.tag.data hbr,
    List.get?_cons_succ, List.get?_nil]

/-- Witness for C9: an un-namespaced `rect` tag with a matching translate
raises the IndexError. -/
theorem c9_namespace_assumption_witness :
    handleTransforms (fmtOfPlaces 1) ⟨"rect", [("transform", "translate(5,3)")]⟩ =
      .error .indexError :=
  c9_namespace_assumption (fmtOfPlaces 1) ⟨"rect", [("transform", "translate(5,3)")]⟩
    "translate(5,3)" ("5".data, "3".data)
    (by decide) (by decide) (by decide) (by decide)

/-- C10: the CleanSVG constructor unconditionally attempts to parse its
argument (its guard tests the globally-truthy builtin name `file` rather
than the svgfile parameter), so constructing with svgfile=None (the
default) always raises, and no constructed instance is empty and
unparsed. -/
theorem c10_constructor_guard :
    (∀ parseF : String → Option XMLElement, cleanSVG_init parseF none = .error .typeError) ∧
    (∀ (parseF : String → Option XMLElement) (sf : Option String) (st : CleanSVGState),
      cleanSVG_init parseF sf = .ok st → st.root.isSome = true) := by
  constructor
  · intro parseF
    rfl
  · intro parseF sf st h
    rcases sf with _ | f
    · simp [cleanSVG_init, pyTruthyBuiltinFile] at h
    · rcases hp : parseF f with _ | root
      · simp [cleanSVG_init, pyTruthyBuiltinFile, hp] at h
      · rw [show cleanSVG_init parseF (some f) = Except.ok ⟨some root, "%s"⟩ from by
          simp [cleanSVG_init, pyTruthyBuiltinFile, hp]] at h
        cases h
        rfl

/-- Witness for C10: constructing with the default argument errors, and a
successful construction holds a parsed root. -/
theorem c10_constructor_guard_witness :
    cleanSVG_init (fun _ => none) none = .error .typeError ∧
    ((⟨some ⟨"svg", []⟩, "%s"⟩ : CleanSVGState).root.isSome = true) :=
  ⟨c10_constructor_guard.1 (fun _ => none),
   c10_constructor_guard.2 (fun _ => some ⟨"svg", []⟩) (some "f")
     ⟨some ⟨"svg", []⟩, "%s"⟩ rfl⟩
